import Mathlib

/-!
Verification of the FlorenceEngine singing-synthesis core against its
natural-language specification.

The Python source is shallowly embedded:
* `float` values are modelled as exact rationals `ℚ`;
* numpy sample buffers are `List ℚ`;
* Python object references are modelled where mutation matters: the
  segmenter (`FlorenceScoreDecoder._group_words_to_sections`) mutates
  `Word` objects in place, so there a `Store` (list of word values)
  plays the role of the heap and word lists are lists of indices into
  that store;
* fallible calls return `Except`.
-/

namespace Florence

/-- Modelled from the spec (§3) and `FlorenceEngine/Objects/data_models.py`
(not under `src/`): a time interval in seconds.  The source field `end` is a
Lean keyword and is rendered `stop` here. -/
structure Time where
  start : ℚ
  stop : ℚ
deriving Repr, DecidableEq

/-- Modelled from the spec (§3) and `data_models.py` (not under `src/`): a
sung syllable.  `pitch` is the target frequency in Hz (`None` when absent),
`oriWave` the raw synthesized waveform, `pitchedWave` the retargeted one. -/
structure Word where
  pitch : Option ℚ
  time : Time
  lrc : String
  oriWave : Option (List ℚ)
  pitchedWave : Option (List ℚ)
deriving Repr, DecidableEq

instance : Inhabited Word :=
  ⟨{ pitch := none, time := { start := 0, stop := 0 }, lrc := "",
     oriWave := none, pitchedWave := none }⟩

/-- The heap for the segmenter model: word objects addressed by index.
A Python reference to a `Word` is a `ℕ` index into the store. -/
abbrev Store := List Word

/-- Dereference a word id.  All executions considered keep ids in range. -/
def getWord (store : Store) (i : ℕ) : Word :=
  store.getD i default

/-- Modelled from the spec (§3) and `data_models.py` (not under `src/`):
a phrase.  `wordList` holds references (store indices) to the member words;
`sectionSrc` (the mixed-down signal) is not produced by the segmenter and is
omitted from the segmenter model. -/
structure Section where
  wordList : List ℕ
  sectionStart : ℚ
deriving Repr, DecidableEq

/-- `FlorenceScoreDecoder.TIME_TOLERANCE = 1e-12`
(FlorenceScoreDecoder.py line 20). -/
def TIME_TOLERANCE : ℚ := 1 / 1000000000000

/-- The payload of the `ValueError` raised by `_check_overlap`
(FlorenceScoreDecoder.py lines 243-247): pair index within the checked word
list, the current word's end time and the next word's start time. -/
structure TemporalOverlapError where
  index : ℕ
  currEnd : ℚ
  nextStart : ℚ
deriving Repr, DecidableEq

/-- Loop body of `_check_overlap` (FlorenceScoreDecoder.py lines 235-247):
scan consecutive pairs, returning the first pair with
`current.time.end - next.time.start > TIME_TOLERANCE`.  `i` is the running
pair index. -/
def check_overlap_from (store : Store) : ℕ → List ℕ → Option TemporalOverlapError
  | _, [] => none
  | _, [_] => none
  | i, a :: b :: rest =>
    let current_word := getWord store a
    let next_word := getWord store b
    if current_word.time.stop - next_word.time.start > TIME_TOLERANCE then
      some { index := i, currEnd := current_word.time.stop,
             nextStart := next_word.time.start }
    else
      check_overlap_from store (i + 1) (b :: rest)

/-- `_check_overlap` (FlorenceScoreDecoder.py lines 230-247): `none` means no
exception, `some e` means `ValueError` carrying `e` was raised.  The
`len(words) < 2` early return is subsumed by the list patterns. -/
def check_overlap (store : Store) (words : List ℕ) : Option TemporalOverlapError :=
  check_overlap_from store 0 words

/-- `_normalnize_time` (FlorenceScoreDecoder.py lines 192-198): for every
adjacent pair in the list, set the current word's end to the next word's
start, in place.  The last word is untouched. -/
def normalnize_time (store : Store) : List ℕ → Store
  | [] => store
  | [_] => store
  | a :: b :: rest =>
    let current_word := getWord store a
    let next_word := getWord store b
    let store1 := store.set a
      { current_word with
        time := { start := current_word.time.start, stop := next_word.time.start } }
    normalnize_time store1 (b :: rest)

/-- `_create_validated_section` (FlorenceScoreDecoder.py lines 201-211):
check overlap first, then normalize in place, then build the `Section`.
Only ever invoked on non-empty batches (`word_list[0]` in the source). -/
def create_validated_section (store : Store) (word_list : List ℕ) :
    Except TemporalOverlapError (Store × Section) :=
  match check_overlap store word_list with
  | some e => .error e
  | none =>
    let store1 := normalnize_time store word_list
    .ok (store1,
      { wordList := word_list,
        sectionStart := (getWord store1 (word_list.headD 0)).time.start })

/-- Loop of `_group_words_to_sections` (FlorenceScoreDecoder.py lines
171-190), including the trailing flush of the last batch.  `batch` is
`current_batch` and is non-empty at every entry; on a gap
`> TIME_TOLERANCE` the batch is validated and flushed and a new batch is
started with the current word. -/
def group_aux (store : Store) (sections : List Section) (batch : List ℕ) :
    List ℕ → Except TemporalOverlapError (Store × List Section)
  | [] =>
    match create_validated_section store batch with
    | .error e => .error e
    | .ok (store1, sec) => .ok (store1, sections ++ [sec])
  | w :: rest =>
    let previous_word := getWord store (batch.getLastD 0)
    let current_word := getWord store w
    let time_gap := current_word.time.start - previous_word.time.stop
    if time_gap > TIME_TOLERANCE then
      match create_validated_section store batch with
      | .error e => .error e
      | .ok (store1, sec) => group_aux store1 (sections ++ [sec]) [w] rest
    else
      group_aux store sections (batch ++ [w]) rest

/-- `_group_words_to_sections` (FlorenceScoreDecoder.py lines 162-190) on a
store and a list of word references. -/
def group_words_to_sections (store : Store) (words : List ℕ) :
    Except TemporalOverlapError (Store × List Section) :=
  match words with
  | [] => .ok (store, [])
  | w :: rest => group_aux store [] [w] rest

/-- Entry point of the segmenter model: the input word objects become the
store and the argument list passes references `0, 1, …, n-1` in order,
exactly as the Python list of (distinct) `Word` objects does. -/
def segmentWords (words : List Word) :
    Except TemporalOverlapError (Store × List Section) :=
  group_words_to_sections words (List.range words.length)

/-! ## FlorenceCoder (pitch retargeter), FlorenceCoder.py -/

/-- The external PyWorld vocoder: the four analysis calls and resynthesis
(FlorenceCoder.py lines 75-106), each of which may raise.  `E` and `A` are
the opaque spectral-envelope and aperiodicity representations, passed
through unchanged by the retargeter. -/
structure Vocoder (E A : Type) where
  dio : List ℚ → ℕ → ℚ → Except String (List ℚ × List ℚ)
  stonemask : List ℚ → List ℚ → List ℚ → ℕ → Except String (List ℚ)
  cheaptrick : List ℚ → List ℚ → List ℚ → ℕ → Except String E
  d4c : List ℚ → List ℚ → List ℚ → ℕ → Except String A
  synthesize : List ℚ → E → A → ℕ → ℚ → Except String (List ℚ)

/-- The F0 shift and safety clamp (FlorenceCoder.py lines 99-103):
`modified_f0 = f0 * pitch_ratio` followed by
`np.where(modified_f0 > 0, np.clip(modified_f0, 50, 1600), 0)`.
`np.clip(m, 50, 1600) = min(1600, max(50, m))`. -/
def computeModifiedF0 (f0 : List ℚ) (ratio : ℚ) : List ℚ :=
  f0.map fun v =>
    if 0 < v * ratio then min 1600 (max 50 (v * ratio)) else 0

/-- The detected average pitch (FlorenceCoder.py lines 88-94): the
arithmetic mean of the voiced (`f0 > 0`) frames. -/
def current_avg_f0 (f0 : List ℚ) : ℚ :=
  let valid_f0 := f0.filter fun v => 0 < v
  valid_f0.sum / (valid_f0.length : ℚ)

/-- Length reconciliation (FlorenceCoder.py lines 109-114): truncate the
resynthesized wave if longer than the original, zero-pad at the end if
shorter. -/
def align_length (y : List ℚ) (n : ℕ) : List ℚ :=
  if y.length ≠ n then
    if y.length > n then y.take n
    else y ++ List.replicate (n - y.length) 0
  else y

/-- `FlorenceCoder._shift_pitch` (FlorenceCoder.py lines 58-116).  The
float64/float32 casts are identity on the exact-rational model.  A raised
exception in any vocoder call propagates (caught by `process_word`). -/
def shift_pitch {E A : Type} (v : Vocoder E A) (sample_rate : ℕ)
    (frame_period : ℚ) (audio : List ℚ) (target_freq : ℚ) :
    Except String (List ℚ) :=
  match v.dio audio sample_rate frame_period with
  | .error e => .error e
  | .ok (f0raw, t) =>
    match v.stonemask audio f0raw t sample_rate with
    | .error e => .error e
    | .ok f0 =>
      match v.cheaptrick audio f0 t sample_rate with
      | .error e => .error e
      | .ok sp =>
        match v.d4c audio f0 t sample_rate with
        | .error e => .error e
        | .ok ap =>
          if (f0.filter fun x => 0 < x).length = 0 then
            -- all-unvoiced fallback: return audio.copy()
            .ok audio
          else
            -- pitch_ratio = target_freq / current_avg_f0
            match v.synthesize
                (computeModifiedF0 f0 (target_freq / current_avg_f0 f0))
                sp ap sample_rate frame_period with
            | .error e => .error e
            | .ok y => .ok (align_length y audio.length)

/-- `FlorenceCoder._process_word` (FlorenceCoder.py lines 37-56): skip when
there is no raw wave or no positive target pitch; on any exception from
`_shift_pitch`, fall back to a copy of the raw wave. -/
def process_word {E A : Type} (v : Vocoder E A) (sample_rate : ℕ)
    (frame_period : ℚ) (word : Word) : Word :=
  match word.oriWave with
  | none => word
  | some ow =>
    if ow.length = 0 then word
    else
      match word.pitch with
      | none => word
      | some p =>
        if p ≤ 0 then word
        else
          match shift_pitch v sample_rate frame_period ow p with
          | .ok y => { word with pitchedWave := some y }
          | .error _ => { word with pitchedWave := some ow }

/-! ## FlorenceWaveConnecter (overlap-add assembler), FlorenceWaveConnecter.py -/

/-- Python `int()` on a real value: truncation toward zero.
(`Rat.floor` is the executable floor on `ℚ`; see `pyInt_eq_floor`.) -/
def pyInt (q : ℚ) : ℤ :=
  if q < 0 then -((-q).floor) else q.floor

/-- `np.linspace a b num` (endpoint inclusive):
`num = 0` gives `[]`, `num = 1` gives `[a]`, otherwise
`a + i * (b - a) / (num - 1)` for `i = 0, …, num - 1`. -/
def linspace (a b : ℚ) (num : ℕ) : List ℚ :=
  if num = 0 then []
  else if num = 1 then [a]
  else (List.range num).map fun (i : ℕ) => a + (i : ℚ) * (b - a) / ((num : ℚ) - 1)

/-- The fade length chosen by `_apply_declick_envelope`
(FlorenceWaveConnecter.py lines 84-88): `int(0.005 * sample_rate)` samples,
shortened to `len(wave) // 2` when the wave is shorter than twice that. -/
def fade_samples_of (sample_rate : ℕ) (wave : List ℚ) : ℕ :=
  if wave.length < (pyInt ((5 / 1000) * (sample_rate : ℚ))).toNat * 2 then
    wave.length / 2
  else (pyInt ((5 / 1000) * (sample_rate : ℚ))).toNat

/-- `processed[:fade_samples] *= fade_in` (FlorenceWaveConnecter.py
line 100) with `fade_in = np.linspace(0, 1, fade_samples)`: the first
`fade_samples` entries of the copy are scaled elementwise. -/
def envelope_pass1 (wave : List ℚ) (fade_samples : ℕ) : List ℚ :=
  List.zipWith (fun a b => a * b) (wave.take fade_samples) (linspace 0 1 fade_samples)
    ++ wave.drop fade_samples

/-- `processed[-fade_samples:] *= fade_out` (FlorenceWaveConnecter.py
line 101) with `fade_out = np.linspace(1, 0, fade_samples)`: the last
`fade_samples` entries are scaled elementwise. -/
def envelope_pass2 (w1 : List ℚ) (fade_samples : ℕ) : List ℚ :=
  w1.take (w1.length - fade_samples)
    ++ List.zipWith (fun a b => a * b)
        (w1.drop (w1.length - fade_samples)) (linspace 1 0 fade_samples)

/-- `_apply_declick_envelope` (FlorenceWaveConnecter.py lines 80-103):
when the fade length is zero the wave is returned as is (no copy); otherwise
a copy is taken, its first `fade_samples` entries are multiplied by
`linspace 0 1` and its last `fade_samples` entries by `linspace 1 0`.
The input buffer is never mutated (the source multiplies into
`processed = wave.copy()`), which the pure embedding renders by building a
new list. -/
def apply_declick_envelope (sample_rate : ℕ) (wave : List ℚ) : List ℚ :=
  let fade_samples := fade_samples_of sample_rate wave
  if fade_samples = 0 then wave
  else envelope_pass2 (envelope_pass1 wave fade_samples) fade_samples

/-- Source selection (FlorenceWaveConnecter.py line 51):
`word.pitchedWave if word.pitchedWave is not None else word.oriWave`. -/
def source_wave (word : Word) : Option (List ℚ) :=
  match word.pitchedWave with
  | some pw => some pw
  | none => word.oriWave

/-- `canvas[start_idx:end_idx] += processed` (FlorenceWaveConnecter.py
line 74) for `0 ≤ start_idx` and `start_idx + len(processed) ≤ len(canvas)`,
the only shapes arising after the growth step. -/
def mixAt (canvas : List ℚ) (s : ℕ) (src : List ℚ) : List ℚ :=
  canvas.take s
    ++ List.zipWith (fun a b => a + b) ((canvas.drop s).take src.length) src
    ++ canvas.drop (s + src.length)

/-- One record per mixed word: the word's absolute start time, the computed
`start_idx`, the source length and the canvas length at the moment of the
mix (after the growth step).  This trace instruments the loop for the
stated properties; the canvas computation itself is unchanged. -/
structure Placement where
  wordStart : ℚ
  start_idx : ℤ
  srcLen : ℕ
  canvasLenAtMix : ℕ
deriving Repr, DecidableEq

/-- Dynamic growth (FlorenceWaveConnecter.py lines 64-66): when
`end_idx > len(canvas)`, append `end_idx - len(canvas)` zero samples. -/
def grow_canvas (canvas : List ℚ) (end_idx : ℤ) : List ℚ :=
  if (canvas.length : ℤ) < end_idx then
    canvas ++ List.replicate (end_idx - (canvas.length : ℤ)).toNat 0
  else canvas

/-- The per-word loop of `_connect_section` (FlorenceWaveConnecter.py lines
49-74): pick the source wave (skipping absent or empty ones), compute
`start_idx = int((word.time.start - base_time) * sample_rate)`, grow the
canvas with zeros when `end_idx` exceeds it, declick, and mix additively. -/
def connect_words (sample_rate : ℕ) (base_time : ℚ) :
    List Word → List ℚ → List Placement → List ℚ × List Placement
  | [], canvas, trace => (canvas, trace)
  | word :: rest, canvas, trace =>
    match source_wave word with
    | none => connect_words sample_rate base_time rest canvas trace
    | some src =>
      if src.length = 0 then connect_words sample_rate base_time rest canvas trace
      else
        let start_idx := pyInt ((word.time.start - base_time) * (sample_rate : ℚ))
        let canvas1 := grow_canvas canvas (start_idx + src.length)
        let canvas2 := mixAt canvas1 start_idx.toNat (apply_declick_envelope sample_rate src)
        connect_words sample_rate base_time rest canvas2
          (trace ++ [{ wordStart := word.time.start, start_idx := start_idx,
                       srcLen := src.length, canvasLenAtMix := canvas1.length }])

/-- `_connect_section` (FlorenceWaveConnecter.py lines 28-78) on the
dereferenced word list of a section (the connecter only reads the words).
`none` models the early return on an empty word list (no `sectionSrc`
written); otherwise the result is the final canvas (`sectionSrc`) together
with the placement trace.  `np.zeros` of the initial size estimate
`int((end_time - base_time + 0.5) * sample_rate)`. -/
def connect_section (sample_rate : ℕ) (wordList : List Word) :
    Option (List ℚ × List Placement) :=
  match wordList with
  | [] => none
  | w0 :: _ =>
    let base_time := w0.time.start
    let end_time := (wordList.getLastD w0).time.stop
    let duration := end_time - base_time + 1 / 2
    let total_samples := (pyInt (duration * (sample_rate : ℚ))).toNat
    let canvas : List ℚ := List.replicate total_samples 0
    some (connect_words sample_rate base_time wordList canvas [])

/-! ## FlorenceEngine (pipeline orchestrator), FlorenceEngine.py -/

/-- The attribute slots of a `FlorenceEngine` instance after `__init__`
(FlorenceEngine.py lines 21-53).  `some ()` records that the attribute was
assigned; `none` that its assignment is commented out in the source
(lines 48-53: `coder`, `wave_connector`, `output_generator`). -/
structure FlorenceEngine where
  output_dir : String
  input_dir : String
  sample_rate : ℕ
  isDebug : Bool
  decoder : Option Unit
  speech_generator : Option Unit
  coder : Option Unit
  wave_connector : Option Unit
  output_generator : Option Unit
deriving Repr, DecidableEq

/-- `FlorenceEngine.__init__` (FlorenceEngine.py lines 21-53): assigns
`decoder` and `speech_generator`; the assignments of `coder`,
`wave_connector` and `output_generator` are commented out, so those
attributes do not exist on the instance. -/
def florence_engine_init (output_dir input_dir : String) (sample_rate : ℕ)
    (is_debug : Bool) : FlorenceEngine :=
  { output_dir := output_dir, input_dir := input_dir,
    sample_rate := sample_rate, isDebug := is_debug,
    decoder := some (), speech_generator := some (),
    coder := none, wave_connector := none, output_generator := none }

/-- Message of the `AttributeError` raised by reading a missing attribute. -/
def attributeErrorMsg (attr : String) : String :=
  "AttributeError: FlorenceEngine object has no attribute " ++ attr

/-- `_adjust_pitch` (FlorenceEngine.py lines 127-132): runs
`self.coder.process_song(song)` inside `try`, re-raising any exception as
`Exception("音高校正失败：…")`.  Reading `self.coder` itself raises
`AttributeError` when the attribute was never assigned, and that exception
is caught by the same `try`. -/
def adjust_pitch {Song : Type} (eng : FlorenceEngine)
    (coderRun : Song → Except String Song) (song : Song) : Except String Song :=
  match eng.coder with
  | none => .error ("音高校正失败：" ++ attributeErrorMsg "coder")
  | some _ =>
    match coderRun song with
    | .ok s => .ok s
    | .error e => .error ("音高校正失败：" ++ e)

/-- `_smooth_connect` (FlorenceEngine.py lines 134-139), same shape as
`_adjust_pitch`. -/
def smooth_connect {Song : Type} (eng : FlorenceEngine)
    (connectRun : Song → Except String Song) (song : Song) : Except String Song :=
  match eng.wave_connector with
  | none => .error ("平滑连接失败：" ++ attributeErrorMsg "wave_connector")
  | some _ =>
    match connectRun song with
    | .ok s => .ok s
    | .error e => .error ("平滑连接失败：" ++ e)

/-- `_generate_output` (FlorenceEngine.py lines 141-146), same shape. -/
def generate_output {Song : Type} (eng : FlorenceEngine)
    (outputRun : Song → Except String String) (song : Song) : Except String String :=
  match eng.output_generator with
  | none => .error ("输出装配失败：" ++ attributeErrorMsg "output_generator")
  | some _ =>
    match outputRun song with
    | .ok s => .ok s
    | .error e => .error ("输出装配失败：" ++ e)

/-- `FlorenceEngine.process_score` (FlorenceEngine.py lines 75-117): check
the file exists, then run the five stages in order, threading each stage's
result into the next; external stage behaviours are parameters.  Stages 1
and 2 run through the attributes assigned in `__init__`; stages 3-5 go
through `_adjust_pitch`, `_smooth_connect`, `_generate_output`. -/
def process_score {Song : Type} (eng : FlorenceEngine)
    (fileExists : String → Bool)
    (decodeF : String → Except String Song)
    (speechRun coderRun connectRun : Song → Except String Song)
    (outputRun : Song → Except String String)
    (score_path : String) : Except String String :=
  if fileExists score_path = false then
    .error ("FileNotFoundError: 乐谱文件不存在：" ++ score_path)
  else
    match eng.decoder with
    | none => .error (attributeErrorMsg "decoder")
    | some _ =>
      match decodeF score_path with
      | .error e => .error e
      | .ok song =>
        match eng.speech_generator with
        | none => .error (attributeErrorMsg "speech_generator")
        | some _ =>
          match speechRun song with
          | .error e => .error e
          | .ok song =>
            match adjust_pitch eng coderRun song with
            | .error e => .error e
            | .ok song =>
              match smooth_connect eng connectRun song with
              | .error e => .error e
              | .ok song => generate_output eng outputRun song

/-! ## Specification-side definitions used in theorem statements -/

/-- `true` iff the segmenter opens a new batch at word `k` (`k ≥ 1`): the
gap between word `k-1` and word `k` exceeds the tolerance
(FlorenceScoreDecoder.py lines 176-178). -/
def wordBreak (words : List Word) (k : ℕ) : Bool :=
  decide (TIME_TOLERANCE <
    (getWord words k).time.start - (getWord words (k - 1)).time.stop)

/-- Reference splitter: groups an index sequence into batches, opening a new
batch at every index where `brk` holds.  Mirrors the batching decisions of
`group_aux` but reads nothing from the store. -/
def splitRunsAux (brk : ℕ → Bool) (batch : List ℕ) : List ℕ → List (List ℕ)
  | [] => [batch]
  | w :: rest =>
    if brk w then batch :: splitRunsAux brk [w] rest
    else splitRunsAux brk (batch ++ [w]) rest

/-- The phrase decomposition of the input: maximal runs of indices with no
break between consecutive members. -/
def splitRuns (words : List Word) : List (List ℕ) :=
  if words.length = 0 then []
  else splitRunsAux (wordBreak words) (List.range' 0 1) (List.range' 1 (words.length - 1))

/-- The cumulative effect of in-place normalization on word `j`: its end
time becomes word `j+1`'s start time exactly when `j+1` exists and belongs
to the same batch (no break at `j+1`); otherwise the word is untouched. -/
def normalizedWord (words : List Word) (j : ℕ) : Word :=
  let w := getWord words j
  if j + 1 < words.length ∧ wordBreak words (j + 1) = false then
    { w with time := { start := w.time.start, stop := (getWord words (j + 1)).time.start } }
  else w

/-- The final heap after segmentation succeeds. -/
def normalizedStore (words : List Word) : Store :=
  (List.range words.length).map (normalizedWord words)

/-- The `Section` built for a batch (section start = first member's start,
which normalization never modifies). -/
def mkSection (words : List Word) (c : List ℕ) : Section :=
  { wordList := c, sectionStart := (getWord words (c.headD 0)).time.start }

/-- Consecutive input pair `j`, `j+1` overlaps illegally. -/
def overlapAt (words : List Word) (j : ℕ) : Prop :=
  TIME_TOLERANCE < (getWord words j).time.stop - (getWord words (j + 1)).time.start

instance (words : List Word) (j : ℕ) : Decidable (overlapAt words j) := by
  unfold overlapAt; infer_instance

/-- No consecutive input pair overlaps. -/
def NoOverlap (words : List Word) : Prop :=
  ∀ j, j + 1 < words.length → ¬ overlapAt words j

/-! ## Concrete inputs for witnesses and counterexamples -/

/-- A test word with the given interval, a fixed target pitch of 220 Hz and
a two-sample raw wave. -/
def testWord (s e : ℚ) : Word :=
  { pitch := some 220, time := { start := s, stop := e }, lrc := "la",
    oriWave := some [1, -1/2], pitchedWave := none }

/-- Two continuous notes `[0, 0.4 + 1e-13]`, `[0.4, 1]` (micro-overlap of
`1e-13 ≤ ε`, still one phrase). -/
def wordsContinuous : List Word :=
  [testWord 0 (2/5 + 1/10000000000000), testWord (2/5) 1]

/-- Two notes with an illegal overlap: `[0, 0.5]` and `[0.4, 0.9]`. -/
def wordsOverlapping : List Word :=
  [testWord 0 (1/2), testWord (2/5) (9/10)]

/-- Two notes with a gap: `[0, 0.5]` and `[0.6, 1]`. -/
def wordsWithGap : List Word :=
  [testWord 0 (1/2), testWord (3/5) 1]

/-- Three notes where the overlap sits in the second phrase: `[0, 0.5]`,
then a gap, then `[0.6, 0.9]` overlapping `[0.8, 1.3]` — the offending
input pair is `(1, 2)` but the raised error's index is `0`. -/
def wordsSecondPhraseOverlap : List Word :=
  [testWord 0 (1/2), testWord (3/5) (9/10), testWord (4/5) (13/10)]

/-- Two back-to-back notes whose second starts at `0.75 s`: at
`sample_rate = 2` the exact offset is `1.5` samples, separating
truncation (`1`) from rounding (`2`). -/
def wordsOffsetHalf : List Word :=
  [testWord 0 (3/4), testWord (3/4) 1]

/-- Expected final heap for `wordsContinuous`: the first word's end time is
normalized to the second word's start; the second word is untouched. -/
def wordsContinuousNormalized : Store :=
  [{ pitch := some 220, time := { start := 0, stop := 2/5 }, lrc := "la",
     oriWave := some [1, -1/2], pitchedWave := none },
   testWord (2/5) 1]

/-- Expected phrase list for `wordsContinuous`: one phrase holding both
word references. -/
def wordsContinuousSections : List Section :=
  [{ wordList := [0, 1], sectionStart := 0 }]

/-- Expected phrase list for `wordsWithGap`: two singleton phrases. -/
def wordsWithGapSections : List Section :=
  [{ wordList := [0], sectionStart := 0 }, { wordList := [1], sectionStart := 3/5 }]

/-- A vocoder whose calls all succeed with fixed values (used to discharge
hypotheses at concrete inputs). -/
def trivialVocoder : Vocoder Unit Unit :=
  { dio := fun _ _ _ => .ok ([100], [0]),
    stonemask := fun _ f0 _ _ => .ok f0,
    cheaptrick := fun _ _ _ _ => .ok (),
    d4c := fun _ _ _ _ => .ok (),
    synthesize := fun _ _ _ _ _ => .ok [] }

/-- A word with a three-sample raw wave and positive target pitch. -/
def coderTestWord : Word :=
  { pitch := some 220, time := { start := 0, stop := 1 }, lrc := "la",
    oriWave := some [1, 0, -1/2], pitchedWave := none }

/-! ## Theorems -/

theorem zip_map_self {α β : Type} (g : α → β) (l : List α) :
    l.zip (l.map g) = l.map fun a => (a, g a) := by
  induction l with
  | nil => rfl
  | cons x xs ih => simp [ih]

theorem align_length_length (y : List ℚ) (n : ℕ) : (align_length y n).length = n := by
  unfold align_length
  split_ifs with h1 h2
  · simp only [List.length_take]
    omega
  · simp only [List.length_append, List.length_replicate]
    omega
  · omega

theorem shift_pitch_ok_length {E A : Type} (v : Vocoder E A) (sr : ℕ) (fp : ℚ)
    (audio : List ℚ) (tf : ℚ) (r : List ℚ)
    (h : shift_pitch v sr fp audio tf = .ok r) : r.length = audio.length := by
  unfold shift_pitch at h
  repeat' split at h
  all_goals try exact (Except.noConfusion h)
  all_goals injection h with h
  all_goals rw [← h]
  all_goals first
    | rfl
    | apply align_length_length

/-- C5: for every Note processed by the PitchRetargeter with a non-empty raw
wave and a positive target pitch, the produced `pitchedWave` has exactly the
raw wave's sample count, whatever the vocoder does: successful resynthesis
(length-reconciled), the all-unvoiced fallback, and the error fallback. -/
theorem coder_preserves_length {E A : Type} (v : Vocoder E A) (sr : ℕ) (fp : ℚ)
    (word : Word) (ow : List ℚ) (p : ℚ)
    (how : word.oriWave = some ow) (hlen : ow.length ≠ 0)
    (hp : word.pitch = some p) (hpos : ¬ p ≤ 0) :
    ∃ y, (process_word v sr fp word).pitchedWave = some y ∧ y.length = ow.length := by
  cases hsp : shift_pitch v sr fp ow p with
  | ok y =>
    refine ⟨y, ?_, shift_pitch_ok_length v sr fp ow p y hsp⟩
    simp [process_word, how, hp, hsp, hlen, hpos]
  | error e =>
    refine ⟨ow, ?_, rfl⟩
    simp [process_word, how, hp, hsp, hlen, hpos]

theorem coder_preserves_length_witness :
    ∃ y, (process_word trivialVocoder 22050 5 coderTestWord).pitchedWave = some y ∧
      y.length = ([1, 0, -1/2] : List ℚ).length :=
  coder_preserves_length trivialVocoder 22050 5 coderTestWord [1, 0, -1/2] 220
    rfl (by decide) rfl (by norm_num)

/-- C9: with a positive target pitch and at least one voiced frame, the
shifted F0 contour handed to resynthesis keeps unvoiced (zero) frames at
zero and has every nonzero value inside `[50, 1600]`.  (`shift_pitch`
invokes `synthesize` on exactly
`computeModifiedF0 f0 (target_freq / current_avg_f0 f0)`.) -/
theorem retarget_contour_clamped (f0 : List ℚ) (target_freq : ℚ)
    (ht : 0 < target_freq) (hv : f0.filter (fun x => 0 < x) ≠ []) :
    (∀ z ∈ f0.zip (computeModifiedF0 f0 (target_freq / current_avg_f0 f0)),
        z.1 = 0 → z.2 = 0)
    ∧ ∀ x ∈ computeModifiedF0 f0 (target_freq / current_avg_f0 f0),
        x ≠ 0 → 50 ≤ x ∧ x ≤ 1600 := by
  constructor
  · intro z hz h1
    rw [computeModifiedF0, zip_map_self] at hz
    obtain ⟨a, _, rfl⟩ := List.mem_map.1 hz
    simp only at h1
    subst h1
    simp
  · intro x hx hne
    obtain ⟨v, _, rfl⟩ := List.mem_map.1 hx
    by_cases h : 0 < v * (target_freq / current_avg_f0 f0)
    · rw [if_pos h]
      refine ⟨le_min (by norm_num) (le_max_left _ _), min_le_left _ _⟩
    · rw [if_neg h] at hne
      exact absurd rfl hne

theorem retarget_contour_clamped_witness :
    (∀ z ∈ ([0, 110] : List ℚ).zip
        (computeModifiedF0 [0, 110] (220 / current_avg_f0 [0, 110])),
        z.1 = 0 → z.2 = 0)
    ∧ ∀ x ∈ computeModifiedF0 [0, 110] (220 / current_avg_f0 [0, 110]),
        x ≠ 0 → 50 ≤ x ∧ x ≤ 1600 :=
  retarget_contour_clamped [0, 110] 220 (by norm_num) (by decide)

/-- C4: with the engine as initialized by `__init__` (where the `coder`,
`wave_connector` and `output_generator` assignments are commented out),
`process_score` never reaches stages 4 and 5: whenever the file exists and
decoding and speech synthesis succeed, it raises at stage 3 because
`self.coder` was never assigned, instead of running all five stages and
returning the output path. -/
theorem pipeline_stalls_at_pitch_stage {Song : Type}
    (od idir : String) (sr : ℕ) (dbg : Bool)
    (fileExists : String → Bool) (decodeF : String → Except String Song)
    (speechRun coderRun connectRun : Song → Except String Song)
    (outputRun : Song → Except String String) (path : String) (s1 s2 : Song)
    (hex : fileExists path = true) (hdec : decodeF path = .ok s1)
    (hsp : speechRun s1 = .ok s2) :
    process_score (florence_engine_init od idir sr dbg) fileExists decodeF
        speechRun coderRun connectRun outputRun path
      = .error ("音高校正失败：" ++ attributeErrorMsg "coder") := by
  simp [process_score, florence_engine_init, adjust_pitch, hex, hdec, hsp]

theorem pipeline_stalls_at_pitch_stage_witness :
    @process_score Unit (florence_engine_init "output" "input" 22050 true)
        (fun _ => true) (fun _ => .ok ()) (fun _ => .ok ()) (fun _ => .ok ())
        (fun _ => .ok ()) (fun _ => .ok "out.wav") "song.musicxml"
      = .error ("音高校正失败：" ++ attributeErrorMsg "coder") :=
  pipeline_stalls_at_pitch_stage "output" "input" 22050 true
    (fun _ => true) (fun _ => .ok ()) (fun _ => .ok ()) (fun _ => .ok ())
    (fun _ => .ok ()) (fun _ => .ok "out.wav") "song.musicxml" () ()
    rfl rfl rfl

/-! ### OverlapAddAssembler lemmas -/

theorem rat_floor_eq (q : ℚ) : Rat.floor q = ⌊q⌋ := by
  rw [Rat.floor_def']
  exact Rat.floor_def.symm

theorem pyInt_eq_floor (q : ℚ) : pyInt q = if q < 0 then -⌊-q⌋ else ⌊q⌋ := by
  unfold pyInt
  rw [rat_floor_eq, rat_floor_eq]

theorem pyInt_of_nonneg (q : ℚ) (h : 0 ≤ q) : pyInt q = ⌊q⌋ := by
  rw [pyInt_eq_floor, if_neg (not_lt.2 h)]

theorem pyInt_nonneg (q : ℚ) (h : 0 ≤ q) : 0 ≤ pyInt q := by
  rw [pyInt_of_nonneg q h]
  exact Int.floor_nonneg.2 h

theorem list_getD_drop {α : Type} (l : List α) (k m : ℕ) (d : α) :
    (l.drop k).getD m d = l.getD (k + m) d := by
  by_cases h : k + m < l.length
  · rw [List.getD_eq_getElem _ _ (by simp [List.length_drop]; omega),
      List.getD_eq_getElem _ _ h, List.getElem_drop]
  · rw [List.getD_eq_getElem?_getD, List.getD_eq_getElem?_getD,
      List.getElem?_eq_none (by simp [List.length_drop]; omega),
      List.getElem?_eq_none (by omega)]

theorem list_getD_take {α : Type} (l : List α) (k m : ℕ) (d : α) (h : m < k) :
    (l.take k).getD m d = l.getD m d := by
  by_cases h2 : m < l.length
  · rw [List.getD_eq_getElem _ _ (by simp [List.length_take]; omega),
      List.getD_eq_getElem _ _ h2, List.getElem_take]
  · rw [List.getD_eq_getElem?_getD, List.getD_eq_getElem?_getD,
      List.getElem?_eq_none (by simp [List.length_take]; omega),
      List.getElem?_eq_none (by omega)]

theorem list_getD_zipWith_mul (l1 l2 : List ℚ) (i : ℕ)
    (h1 : i < l1.length) (h2 : i < l2.length) :
    (List.zipWith (fun a b => a * b) l1 l2).getD i 0 = l1.getD i 0 * l2.getD i 0 := by
  rw [List.getD_eq_getElem _ _ (by simp [List.length_zipWith]; omega),
    List.getElem_zipWith, List.getD_eq_getElem _ _ h1, List.getD_eq_getElem _ _ h2]

theorem linspace_length (a b : ℚ) (num : ℕ) : (linspace a b num).length = num := by
  unfold linspace
  split_ifs with h1 h2
  · simp [h1]
  · simp [h2]
  · simp

theorem linspace_first (a b : ℚ) (num : ℕ) (h : 0 < num) :
    (linspace a b num).getD 0 0 = a := by
  unfold linspace
  split_ifs with h1 h2
  · omega
  · rfl
  · have hlt : 0 < ((List.range num).map
        fun (i : ℕ) => a + (i : ℚ) * (b - a) / ((num : ℚ) - 1)).length := by
      simpa using h
    rw [List.getD_eq_getElem _ _ hlt, List.getElem_map]
    simp

theorem linspace_last (a b : ℚ) (num : ℕ) (h : 2 ≤ num) :
    (linspace a b num).getD (num - 1) 0 = b := by
  unfold linspace
  split_ifs with h1 h2
  · omega
  · omega
  · have hlt : num - 1 < ((List.range num).map
        fun (i : ℕ) => a + (i : ℚ) * (b - a) / ((num : ℚ) - 1)).length := by
      simp
      omega
    rw [List.getD_eq_getElem _ _ hlt, List.getElem_map, List.getElem_range]
    have hcast : ((num - 1 : ℕ) : ℚ) = (num : ℚ) - 1 := by
      have h1n : 1 ≤ num := by omega
      push_cast [h1n]
      ring
    have hne : ((num : ℚ) - 1) ≠ 0 := by
      have h2q : (2 : ℚ) ≤ (num : ℚ) := by exact_mod_cast h
      intro hc
      rw [sub_eq_zero] at hc
      rw [hc] at h2q
      norm_num at h2q
    rw [hcast, mul_div_cancel_left₀ (b - a) hne]
    ring

theorem fade_samples_two_le (sample_rate : ℕ) (wave : List ℚ) :
    2 * fade_samples_of sample_rate wave ≤ wave.length := by
  unfold fade_samples_of
  split_ifs with h
  · omega
  · omega

theorem envelope_pass1_length (wave : List ℚ) (f : ℕ) (hf : f ≤ wave.length) :
    (envelope_pass1 wave f).length = wave.length := by
  unfold envelope_pass1
  simp [linspace_length]
  omega

theorem envelope_pass2_length (w1 : List ℚ) (f : ℕ) (hf : f ≤ w1.length) :
    (envelope_pass2 w1 f).length = w1.length := by
  unfold envelope_pass2
  simp [linspace_length]
  omega

theorem envelope_pass1_getD_lt (wave : List ℚ) (f i : ℕ)
    (hi : i < f) (hf : f ≤ wave.length) :
    (envelope_pass1 wave f).getD i 0 = wave.getD i 0 * (linspace 0 1 f).getD i 0 := by
  unfold envelope_pass1
  have hzl : (List.zipWith (fun a b => a * b) (wave.take f) (linspace 0 1 f)).length = f := by
    simp [List.length_zipWith, List.length_take, linspace_length]
    omega
  rw [List.getD_append _ _ _ i (by omega), list_getD_zipWith_mul _ _ i
    (by simp [List.length_take]; omega) (by rw [linspace_length]; omega),
    list_getD_take _ _ _ _ hi]

theorem envelope_pass1_getD_ge (wave : List ℚ) (f i : ℕ)
    (hi : f ≤ i) (hiL : i < wave.length) :
    (envelope_pass1 wave f).getD i 0 = wave.getD i 0 := by
  unfold envelope_pass1
  have hzl : (List.zipWith (fun a b => a * b) (wave.take f) (linspace 0 1 f)).length = f := by
    simp [List.length_zipWith, List.length_take, linspace_length]
    omega
  rw [List.getD_append_right _ _ _ i (by omega), hzl, list_getD_drop]
  congr 1
  omega

theorem envelope_pass2_getD_lt (w1 : List ℚ) (f i : ℕ)
    (hi : i < w1.length - f) :
    (envelope_pass2 w1 f).getD i 0 = w1.getD i 0 := by
  unfold envelope_pass2
  have htl : (w1.take (w1.length - f)).length = w1.length - f := by
    simp [List.length_take]
  rw [List.getD_append _ _ _ i (by omega), list_getD_take _ _ _ _ hi]

theorem envelope_pass2_getD_ge (w1 : List ℚ) (f i : ℕ)
    (hi : w1.length - f ≤ i) (hiL : i < w1.length) (hf : f ≤ w1.length) :
    (envelope_pass2 w1 f).getD i 0 =
      w1.getD i 0 * (linspace 1 0 f).getD (i - (w1.length - f)) 0 := by
  unfold envelope_pass2
  have htl : (w1.take (w1.length - f)).length = w1.length - f := by
    simp [List.length_take]
  rw [List.getD_append_right _ _ _ i (by omega), htl,
    list_getD_zipWith_mul _ _ _ (by simp [List.length_drop]; omega)
      (by rw [linspace_length]; omega),
    list_getD_drop]
  have hidx : w1.length - f + (i - (w1.length - f)) = i := by omega
  rw [hidx]

/-- C7 (amended): the declick step leaves the wave alone when the computed
fade length is `0`; otherwise it works on a copy of the same length whose
first sample is exactly `0`; the last sample is exactly `0` when the fade
length is at least `2`, while a fade length of exactly `1` multiplies the
last sample by `np.linspace(1,0,1) = [1.0]` and therefore leaves it
unchanged. -/
theorem declick_envelope_endpoints (sample_rate : ℕ) (wave : List ℚ) :
    (fade_samples_of sample_rate wave = 0 →
      apply_declick_envelope sample_rate wave = wave)
    ∧ (apply_declick_envelope sample_rate wave).length = wave.length
    ∧ (1 ≤ fade_samples_of sample_rate wave →
        (apply_declick_envelope sample_rate wave).getD 0 0 = 0)
    ∧ (2 ≤ fade_samples_of sample_rate wave →
        (apply_declick_envelope sample_rate wave).getD (wave.length - 1) 0 = 0)
    ∧ (fade_samples_of sample_rate wave = 1 →
        (apply_declick_envelope sample_rate wave).getD (wave.length - 1) 0
          = wave.getD (wave.length - 1) 0) := by
  have h2f := fade_samples_two_le sample_rate wave
  by_cases hf0 : fade_samples_of sample_rate wave = 0
  · refine ⟨fun _ => ?_, ?_, fun h1 => ?_, fun h2 => ?_, fun h1 => ?_⟩ <;>
      simp [apply_declick_envelope, hf0] at * <;> omega
  · have hout : apply_declick_envelope sample_rate wave =
        envelope_pass2 (envelope_pass1 wave (fade_samples_of sample_rate wave))
          (fade_samples_of sample_rate wave) := by
      simp [apply_declick_envelope, hf0]
    set f := fade_samples_of sample_rate wave with hfdef
    have hf1 : 1 ≤ f := by omega
    have hfL : f ≤ wave.length := by omega
    have hL2 : 2 ≤ wave.length := by omega
    have h1len : (envelope_pass1 wave f).length = wave.length :=
      envelope_pass1_length wave f hfL
    have hlen : (apply_declick_envelope sample_rate wave).length = wave.length := by
      rw [hout, envelope_pass2_length _ _ (by omega), h1len]
    refine ⟨fun h => absurd h hf0, hlen, fun _ => ?_, fun h2 => ?_, fun h1 => ?_⟩
    · -- first sample: (wave[0] * fade_in[0]) survives pass 2 untouched
      rw [hout, envelope_pass2_getD_lt _ _ _ (by omega),
        envelope_pass1_getD_lt wave f 0 (by omega) hfL,
        linspace_first 0 1 f (by omega)]
      ring
    · -- last sample, fade length ≥ 2: multiplied by fade_out[f-1] = 0
      rw [hout, envelope_pass2_getD_ge _ _ _ (by omega) (by omega) (by omega),
        envelope_pass1_getD_ge wave f (wave.length - 1) (by omega) (by omega)]
      have hidx : wave.length - 1 - ((envelope_pass1 wave f).length - f) = f - 1 := by
        omega
      rw [hidx, linspace_last 1 0 f h2]
      ring
    · -- last sample, fade length = 1: multiplied by fade_out[0] = 1
      rw [hout, envelope_pass2_getD_ge _ _ _ (by omega) (by omega) (by omega),
        envelope_pass1_getD_ge wave f (wave.length - 1) (by omega) (by omega)]
      have hidx : wave.length - 1 - ((envelope_pass1 wave f).length - f) = 0 := by
        omega
      rw [hidx, linspace_first 1 0 f (by omega)]
      ring

theorem declick_envelope_endpoints_witness :
    (apply_declick_envelope 1000 (List.replicate 12 1)).getD 0 0 = 0
    ∧ (apply_declick_envelope 1000 (List.replicate 12 1)).getD
        ((List.replicate 12 (1 : ℚ)).length - 1) 0 = 0 :=
  ⟨(declick_envelope_endpoints 1000 (List.replicate 12 1)).2.2.1
      (by norm_num [fade_samples_of, pyInt_eq_floor] <;> decide),
   (declick_envelope_endpoints 1000 (List.replicate 12 1)).2.2.2.1
      (by norm_num [fade_samples_of, pyInt_eq_floor] <;> decide)⟩

/-- C7 counterexample: at `sample_rate = 200` the fade length is
`int(0.005 * 200) = 1 > 0` and the two-sample wave `[5, 7]` satisfies
`len(source) >= 2 * fadeSamples`, yet the enveloped copy's last sample is
`7 * linspace(1,0,1)[0] = 7 ≠ 0`, refuting the claim that both the first
and the last samples are exactly `0`. -/
theorem declick_last_sample_counterexample :
    fade_samples_of 200 [5, 7] = 1
    ∧ 2 * fade_samples_of 200 [5, 7] ≤ ([5, 7] : List ℚ).length
    ∧ (apply_declick_envelope 200 [5, 7]).getD (([5, 7] : List ℚ).length - 1) 0 ≠ 0 := by
  have hfs : fade_samples_of 200 [5, 7] = 1 := by
    norm_num [fade_samples_of, pyInt_eq_floor] <;> decide
  refine ⟨hfs, by rw [hfs]; decide, ?_⟩
  norm_num [apply_declick_envelope, hfs, envelope_pass1, envelope_pass2, linspace]

theorem connect_words_nil (sr : ℕ) (base : ℚ) (canvas : List ℚ) (trace : List Placement) :
    connect_words sr base [] canvas trace = (canvas, trace) := rfl

theorem connect_words_cons_none (sr : ℕ) (base : ℚ) (w : Word) (rest : List Word)
    (canvas : List ℚ) (trace : List Placement) (hsw : source_wave w = none) :
    connect_words sr base (w :: rest) canvas trace =
      connect_words sr base rest canvas trace := by
  simp [connect_words, hsw]

theorem connect_words_cons_empty (sr : ℕ) (base : ℚ) (w : Word) (rest : List Word)
    (canvas : List ℚ) (trace : List Placement) (src : List ℚ)
    (hsw : source_wave w = some src) (hz : src.length = 0) :
    connect_words sr base (w :: rest) canvas trace =
      connect_words sr base rest canvas trace := by
  simp [connect_words, hsw, hz]

theorem connect_words_cons_src (sr : ℕ) (base : ℚ) (w : Word) (rest : List Word)
    (canvas : List ℚ) (trace : List Placement) (src : List ℚ)
    (hsw : source_wave w = some src) (hz : src.length ≠ 0) :
    connect_words sr base (w :: rest) canvas trace =
      connect_words sr base rest
        (mixAt (grow_canvas canvas (pyInt ((w.time.start - base) * (sr : ℚ)) + src.length))
          (pyInt ((w.time.start - base) * (sr : ℚ))).toNat
          (apply_declick_envelope sr src))
        (trace ++ [{ wordStart := w.time.start,
                     start_idx := pyInt ((w.time.start - base) * (sr : ℚ)),
                     srcLen := src.length,
                     canvasLenAtMix :=
                       (grow_canvas canvas
                         (pyInt ((w.time.start - base) * (sr : ℚ)) + src.length)).length }]) := by
  simp [connect_words, hsw, hz]

theorem grow_canvas_bound (canvas : List ℚ) (s : ℤ) (n : ℕ) (h0 : 0 ≤ s) :
    s.toNat + n ≤ (grow_canvas canvas (s + (n : ℤ))).length := by
  unfold grow_canvas
  split_ifs with h
  · simp only [List.length_append, List.length_replicate]
    omega
  · omega

theorem connect_words_canvas_bounds (sr : ℕ) (base : ℚ) :
    ∀ (ws : List Word) (canvas : List ℚ) (trace : List Placement),
      (∀ w ∈ ws, base ≤ w.time.start) →
      (∀ pl ∈ trace, 0 ≤ pl.start_idx ∧ pl.start_idx.toNat + pl.srcLen ≤ pl.canvasLenAtMix) →
      ∀ pl ∈ (connect_words sr base ws canvas trace).2,
        0 ≤ pl.start_idx ∧ pl.start_idx.toNat + pl.srcLen ≤ pl.canvasLenAtMix := by
  intro ws
  induction ws with
  | nil =>
    intro canvas trace _ htr pl hpl
    rw [connect_words_nil] at hpl
    exact htr pl hpl
  | cons w rest ih =>
    intro canvas trace hws htr pl hpl
    cases hsw : source_wave w with
    | none =>
      rw [connect_words_cons_none sr base w rest canvas trace hsw] at hpl
      exact ih canvas trace (fun w' hw' => hws w' (List.mem_cons_of_mem _ hw')) htr pl hpl
    | some src =>
      by_cases hz : src.length = 0
      · rw [connect_words_cons_empty sr base w rest canvas trace src hsw hz] at hpl
        exact ih canvas trace (fun w' hw' => hws w' (List.mem_cons_of_mem _ hw')) htr pl hpl
      · rw [connect_words_cons_src sr base w rest canvas trace src hsw hz] at hpl
        refine ih _ _ (fun w' hw' => hws w' (List.mem_cons_of_mem _ hw')) ?_ pl hpl
        intro pl' hpl'
        rcases List.mem_append.1 hpl' with hmem | hmem
        · exact htr pl' hmem
        · rw [List.mem_singleton] at hmem
          subst hmem
          have hrel : (0 : ℚ) ≤ (w.time.start - base) * (sr : ℚ) :=
            mul_nonneg (sub_nonneg.2 (hws w (List.mem_cons_self _ _))) (by positivity)
          exact ⟨pyInt_nonneg _ hrel,
            grow_canvas_bound canvas _ src.length (pyInt_nonneg _ hrel)⟩

/-- C8: for every assembled phrase with start-sorted notes, at the moment
each note is mixed the canvas extends to at least `offset + len(source)`
(the growth step pads with zeros when needed), and the offset is
non-negative, so no sample of any source waveform is truncated and every
canvas write is in bounds. -/
theorem assembler_canvas_bounds (sr : ℕ) (wordList : List Word)
    (res : List ℚ × List Placement)
    (hres : connect_section sr wordList = some res)
    (hsorted : ∀ w ∈ wordList, (wordList.headD default).time.start ≤ w.time.start) :
    ∀ pl ∈ res.2, 0 ≤ pl.start_idx ∧ pl.start_idx.toNat + pl.srcLen ≤ pl.canvasLenAtMix := by
  cases wordList with
  | nil => exact absurd hres (by simp [connect_section])
  | cons w0 rest =>
    simp only [connect_section, Option.some.injEq] at hres
    subst hres
    refine connect_words_canvas_bounds sr w0.time.start (w0 :: rest) _ []
      (fun w hw => ?_) (by simp)
    simpa using hsorted w hw

theorem assembler_canvas_bounds_witness :
    0 ≤ ({ wordStart := 0, start_idx := 0, srcLen := 2, canvasLenAtMix := 2 } :
        Placement).start_idx
    ∧ ({ wordStart := 0, start_idx := 0, srcLen := 2, canvasLenAtMix := 2 } :
        Placement).start_idx.toNat
      + ({ wordStart := 0, start_idx := 0, srcLen := 2, canvasLenAtMix := 2 } :
        Placement).srcLen
      ≤ ({ wordStart := 0, start_idx := 0, srcLen := 2, canvasLenAtMix := 2 } :
        Placement).canvasLenAtMix :=
  assembler_canvas_bounds 1 [testWord 0 1]
    ([1, -1/2], [{ wordStart := 0, start_idx := 0, srcLen := 2, canvasLenAtMix := 2 }])
    (by
      have h1 : (1 : ℤ).toNat = 1 := rfl
      have h2 : (2 : ℤ).toNat = 2 := rfl
      norm_num [connect_section, connect_words, testWord, source_wave,
        grow_canvas, mixAt, apply_declick_envelope, fade_samples_of, envelope_pass1,
        envelope_pass2, linspace, pyInt_eq_floor, h1, h2, List.replicate_succ])
    (by norm_num [testWord])
    { wordStart := 0, start_idx := 0, srcLen := 2, canvasLenAtMix := 2 }
    (by simp)

theorem connect_words_trace_offsets (sr : ℕ) (base : ℚ) :
    ∀ (ws : List Word) (canvas : List ℚ) (trace : List Placement),
      (∀ w ∈ ws, base ≤ w.time.start) →
      (∀ pl ∈ trace, pl.start_idx = pyInt ((pl.wordStart - base) * (sr : ℚ)) ∧
        pl.start_idx = ⌊(pl.wordStart - base) * (sr : ℚ)⌋) →
      ∀ pl ∈ (connect_words sr base ws canvas trace).2,
        pl.start_idx = pyInt ((pl.wordStart - base) * (sr : ℚ)) ∧
        pl.start_idx = ⌊(pl.wordStart - base) * (sr : ℚ)⌋ := by
  intro ws
  induction ws with
  | nil =>
    intro canvas trace _ htr pl hpl
    rw [connect_words_nil] at hpl
    exact htr pl hpl
  | cons w rest ih =>
    intro canvas trace hws htr pl hpl
    cases hsw : source_wave w with
    | none =>
      rw [connect_words_cons_none sr base w rest canvas trace hsw] at hpl
      exact ih canvas trace (fun w' hw' => hws w' (List.mem_cons_of_mem _ hw')) htr pl hpl
    | some src =>
      by_cases hz : src.length = 0
      · rw [connect_words_cons_empty sr base w rest canvas trace src hsw hz] at hpl
        exact ih canvas trace (fun w' hw' => hws w' (List.mem_cons_of_mem _ hw')) htr pl hpl
      · rw [connect_words_cons_src sr base w rest canvas trace src hsw hz] at hpl
        refine ih _ _ (fun w' hw' => hws w' (List.mem_cons_of_mem _ hw')) ?_ pl hpl
        intro pl' hpl'
        rcases List.mem_append.1 hpl' with hmem | hmem
        · exact htr pl' hmem
        · rw [List.mem_singleton] at hmem
          subst hmem
          have hrel : (0 : ℚ) ≤ (w.time.start - base) * (sr : ℚ) :=
            mul_nonneg (sub_nonneg.2 (hws w (List.mem_cons_self _ _))) (by positivity)
          exact ⟨rfl, pyInt_of_nonneg _ hrel⟩

/-- C6 (amended): each placed note's integer sample offset is
`int((note.interval.start - base) * sampleRate)` — Python `int()`, i.e.
truncation toward zero, which for the non-negative offsets of a start-sorted
phrase equals `floor`, not `round`. -/
theorem assembler_offset_formula (sr : ℕ) (wordList : List Word)
    (res : List ℚ × List Placement)
    (hres : connect_section sr wordList = some res)
    (hsorted : ∀ w ∈ wordList, (wordList.headD default).time.start ≤ w.time.start) :
    ∀ pl ∈ res.2,
      pl.start_idx = pyInt ((pl.wordStart - (wordList.headD default).time.start) * (sr : ℚ))
      ∧ pl.start_idx = ⌊(pl.wordStart - (wordList.headD default).time.start) * (sr : ℚ)⌋ := by
  cases wordList with
  | nil => exact absurd hres (by simp [connect_section])
  | cons w0 rest =>
    simp only [connect_section, Option.some.injEq] at hres
    subst hres
    intro pl hpl
    have := connect_words_trace_offsets sr w0.time.start (w0 :: rest) _ []
      (fun w hw => by simpa using hsorted w hw) (by simp) pl hpl
    simpa using this

theorem assembler_offset_formula_witness :
    ({ wordStart := 3/4, start_idx := 1, srcLen := 2, canvasLenAtMix := 3 } :
        Placement).start_idx
      = pyInt ((({ wordStart := 3/4, start_idx := 1, srcLen := 2, canvasLenAtMix := 3 } :
          Placement).wordStart - (wordsOffsetHalf.headD default).time.start) * (2 : ℚ))
    ∧ ({ wordStart := 3/4, start_idx := 1, srcLen := 2, canvasLenAtMix := 3 } :
        Placement).start_idx
      = ⌊(({ wordStart := 3/4, start_idx := 1, srcLen := 2, canvasLenAtMix := 3 } :
          Placement).wordStart - (wordsOffsetHalf.headD default).time.start) * (2 : ℚ)⌋ :=
  assembler_offset_formula 2 wordsOffsetHalf
    ([1, 1/2, -1/2],
     [{ wordStart := 0, start_idx := 0, srcLen := 2, canvasLenAtMix := 3 },
      { wordStart := 3/4, start_idx := 1, srcLen := 2, canvasLenAtMix := 3 }])
    (by
      have h3 : (3 : ℤ).toNat = 3 := rfl
      norm_num [connect_section, connect_words, wordsOffsetHalf, testWord, source_wave,
        grow_canvas, mixAt, apply_declick_envelope, fade_samples_of, envelope_pass1,
        envelope_pass2, linspace, pyInt_eq_floor, h3, List.replicate_succ])
    (by norm_num [wordsOffsetHalf, testWord])
    { wordStart := 3/4, start_idx := 1, srcLen := 2, canvasLenAtMix := 3 }
    (by simp)

/-- C6 counterexample: with notes at `0 s` and `0.75 s` and
`sample_rate = 2`, the second note's offset is `int(1.5) = 1`, whereas the
claimed `round((start - base) * sampleRate) = round(1.5) = 2`: the code
truncates, it does not round. -/
theorem assembler_offset_round_counterexample :
    ∃ res, connect_section 2 wordsOffsetHalf = some res ∧
      ∃ pl ∈ res.2,
        pl.start_idx ≠
          round ((pl.wordStart - (wordsOffsetHalf.headD default).time.start) * (2 : ℚ)) := by
  refine ⟨([1, 1/2, -1/2],
    [{ wordStart := 0, start_idx := 0, srcLen := 2, canvasLenAtMix := 3 },
     { wordStart := 3/4, start_idx := 1, srcLen := 2, canvasLenAtMix := 3 }]), ?_, ?_⟩
  · have h3 : (3 : ℤ).toNat = 3 := rfl
    norm_num [connect_section, connect_words, wordsOffsetHalf, testWord, source_wave,
      grow_canvas, mixAt, apply_declick_envelope, fade_samples_of, envelope_pass1,
      envelope_pass2, linspace, pyInt_eq_floor, h3, List.replicate_succ]
  · refine ⟨{ wordStart := 3/4, start_idx := 1, srcLen := 2, canvasLenAtMix := 3 },
      by simp, ?_⟩
    norm_num [wordsOffsetHalf, testWord, round_eq]

/-! ### Segmenter lemmas -/

theorem TIME_TOLERANCE_pos : 0 < TIME_TOLERANCE := by
  norm_num [TIME_TOLERANCE]

theorem range'_headD (b l : ℕ) (d : ℕ) : (List.range' b (l + 1)).headD d = b := by
  rw [List.range'_succ]
  rfl

theorem range'_getLastD (b l : ℕ) (d : ℕ) : (List.range' b (l + 1)).getLastD d = b + l := by
  have h : List.range' b (l + 1) = List.range' b l ++ [b + l] := by
    have := @List.range'_concat 1 b l
    simpa using this
  rw [h, List.getLastD_concat]

theorem range'_getD (s len p : ℕ) (d : ℕ) (hp : p < len) :
    (List.range' s len).getD p d = s + p := by
  rw [List.getD_eq_getElem _ _ (by simpa using hp), List.getElem_range']
  simp

theorem getWord_length_le (store : Store) (i : ℕ) (h : store.length ≤ i) :
    getWord store i = default := by
  unfold getWord
  rw [List.getD_eq_getElem?_getD, List.getElem?_eq_none h]
  rfl

theorem getWord_set_ne (store : Store) (i j : ℕ) (v : Word) (h : i ≠ j) :
    getWord (store.set i v) j = getWord store j := by
  unfold getWord
  rw [List.getD_eq_getElem?_getD, List.getD_eq_getElem?_getD, List.getElem?_set,
    if_neg h]

theorem getWord_set_eq (store : Store) (i : ℕ) (v : Word) (h : i < store.length) :
    getWord (store.set i v) i = v := by
  unfold getWord
  rw [List.getD_eq_getElem?_getD, List.getElem?_set, if_pos rfl, if_pos h]
  rfl

theorem store_eq_of_getWord (s1 s2 : Store) (hlen : s1.length = s2.length)
    (h : ∀ j, j < s1.length → getWord s1 j = getWord s2 j) : s1 = s2 := by
  apply List.ext_getElem hlen
  intro i h1 h2
  have := h i h1
  rwa [getWord, getWord, List.getD_eq_getElem _ _ h1, List.getD_eq_getElem _ _ h2] at this

theorem normalizedStore_length (words : List Word) :
    (normalizedStore words).length = words.length := by
  simp [normalizedStore]

theorem getWord_normalizedStore (words : List Word) (j : ℕ) (h : j < words.length) :
    getWord (normalizedStore words) j = normalizedWord words j := by
  unfold normalizedStore getWord
  rw [List.getD_eq_getElem _ _ (by simpa using h), List.getElem_map, List.getElem_range]

theorem normalizedWord_start (words : List Word) (j : ℕ) :
    (normalizedWord words j).time.start = (getWord words j).time.start := by
  unfold normalizedWord
  split <;> rfl

theorem normalnize_time_length (store : Store) :
    ∀ ids : List ℕ, (normalnize_time store ids).length = store.length := by
  intro ids
  induction ids generalizing store with
  | nil => rfl
  | cons a tl ih =>
    cases tl with
    | nil => rfl
    | cons b rest =>
      show (normalnize_time (store.set a _) (b :: rest)).length = store.length
      rw [ih]
      exact List.length_set store a _

theorem normalnize_time_range'_getWord (words : List Word) :
    ∀ (len b : ℕ) (store : Store), b + len ≤ store.length →
    ∀ j, getWord (normalnize_time store (List.range' b len)) j =
      if b ≤ j ∧ j + 1 < b + len then
        { getWord store j with
          time := { start := (getWord store j).time.start,
                    stop := (getWord store (j + 1)).time.start } }
      else getWord store j := by
  intro len
  induction len with
  | zero =>
    intro b store _ j
    rw [if_neg (by omega)]
    rfl
  | succ l ih =>
    intro b store hlen j
    cases l with
    | zero =>
      rw [if_neg (by omega)]
      have h1 : List.range' b 1 = [b] := by simp
      rw [h1]
      rfl
    | succ l' =>
      have hsplit : List.range' b (l' + 1 + 1) = b :: List.range' (b + 1) (l' + 1) := by
        have := List.range'_succ b (l' + 1) 1
        simpa using this
      rw [hsplit]
      show getWord (normalnize_time (store.set b _) (List.range' (b + 1) (l' + 1))) j = _
      have hlen1 : (b + 1) + (l' + 1) ≤ (store.set b
          { getWord store b with
            time := { start := (getWord store b).time.start,
                      stop := (getWord store (b + 1)).time.start } }).length := by
        rw [List.length_set]
        omega
      rw [ih (b + 1) _ hlen1 j]
      by_cases hj : j = b
      · rw [if_neg (by omega), if_pos (by omega), hj,
          getWord_set_eq store b _ (by omega)]
      · have hset : ∀ i : ℕ, i ≠ b →
            getWord (store.set b
              { getWord store b with
                time := { start := (getWord store b).time.start,
                          stop := (getWord store (b + 1)).time.start } }) i
              = getWord store i :=
          fun i hi => getWord_set_ne store b i _ (fun hc => hi hc.symm)
        by_cases hcond : b + 1 ≤ j ∧ j + 1 < b + 1 + (l' + 1)
        · rw [if_pos hcond, if_pos (by omega)]
          rw [hset j hj, hset (j + 1) (by omega)]
        · rw [if_neg hcond, if_neg (by omega)]
          exact hset j hj

theorem check_overlap_from_cons_cons (store : Store) (i a b : ℕ) (rest : List ℕ) :
    check_overlap_from store i (a :: b :: rest) =
      if TIME_TOLERANCE < (getWord store a).time.stop - (getWord store b).time.start
      then some { index := i, currEnd := (getWord store a).time.stop,
                  nextStart := (getWord store b).time.start }
      else check_overlap_from store (i + 1) (b :: rest) := rfl

theorem check_overlap_from_none_of (store : Store) :
    ∀ (len b i : ℕ),
    (∀ j, b ≤ j → j + 1 < b + len →
      ¬ (TIME_TOLERANCE < (getWord store j).time.stop - (getWord store (j + 1)).time.start)) →
    check_overlap_from store i (List.range' b len) = none := by
  intro len
  induction len with
  | zero => intro b i _; rfl
  | succ l ih =>
    intro b i h
    cases l with
    | zero => rfl
    | succ l' =>
      have hsplit : List.range' b (l' + 1 + 1) = b :: List.range' (b + 1) (l' + 1) := by
        have := List.range'_succ b (l' + 1) 1
        simpa using this
      have hsplit2 : List.range' (b + 1) (l' + 1) = (b + 1) :: List.range' (b + 2) l' := by
        have := List.range'_succ (b + 1) l' 1
        simpa [Nat.add_assoc] using this
      rw [hsplit, hsplit2, check_overlap_from_cons_cons,
        if_neg (h b (le_refl b) (by omega)), ← hsplit2]
      exact ih (b + 1) (i + 1) (fun j hj hj2 => h j (by omega) (by omega))

theorem check_overlap_from_none_sound (store : Store) :
    ∀ (len b i : ℕ),
    check_overlap_from store i (List.range' b len) = none →
    ∀ j, b ≤ j → j + 1 < b + len →
      ¬ (TIME_TOLERANCE < (getWord store j).time.stop - (getWord store (j + 1)).time.start) := by
  intro len
  induction len with
  | zero => intro b i _ j _ _; omega
  | succ l ih =>
    intro b i hnone j hj hj2
    cases l with
    | zero => omega
    | succ l' =>
      have hsplit : List.range' b (l' + 1 + 1) = b :: List.range' (b + 1) (l' + 1) := by
        have := List.range'_succ b (l' + 1) 1
        simpa using this
      have hsplit2 : List.range' (b + 1) (l' + 1) = (b + 1) :: List.range' (b + 2) l' := by
        have := List.range'_succ (b + 1) l' 1
        simpa [Nat.add_assoc] using this
      rw [hsplit, hsplit2, check_overlap_from_cons_cons] at hnone
      by_cases hfirst :
          TIME_TOLERANCE < (getWord store b).time.stop - (getWord store (b + 1)).time.start
      · rw [if_pos hfirst] at hnone
        exact absurd hnone (by simp)
      · rw [if_neg hfirst, ← hsplit2] at hnone
        by_cases hjb : j = b
        · rw [hjb]
          exact hfirst
        · exact ih (b + 1) (i + 1) hnone j (by omega) (by omega)

theorem check_overlap_from_some_sound (store : Store) :
    ∀ (len b i : ℕ) (e : TemporalOverlapError),
    check_overlap_from store i (List.range' b len) = some e →
    ∃ j, b ≤ j ∧ j + 1 < b + len ∧ e.currEnd = (getWord store j).time.stop ∧
      e.nextStart = (getWord store (j + 1)).time.start ∧
      TIME_TOLERANCE < e.currEnd - e.nextStart ∧
      e.index = i + (j - b) := by
  intro len
  induction len with
  | zero => intro b i e h; exact absurd h (by simp [check_overlap_from])
  | succ l ih =>
    intro b i e hsome
    cases l with
    | zero =>
      refine absurd hsome ?_
      have h1 : List.range' b 1 = [b] := by simp
      rw [h1]
      simp [check_overlap_from]
    | succ l' =>
      have hsplit : List.range' b (l' + 1 + 1) = b :: List.range' (b + 1) (l' + 1) := by
        have := List.range'_succ b (l' + 1) 1
        simpa using this
      have hsplit2 : List.range' (b + 1) (l' + 1) = (b + 1) :: List.range' (b + 2) l' := by
        have := List.range'_succ (b + 1) l' 1
        simpa [Nat.add_assoc] using this
      rw [hsplit, hsplit2, check_overlap_from_cons_cons] at hsome
      by_cases hfirst :
          TIME_TOLERANCE < (getWord store b).time.stop - (getWord store (b + 1)).time.start
      · rw [if_pos hfirst] at hsome
        have he := (Option.some.inj hsome).symm
        refine ⟨b, le_refl b, by omega, ?_, ?_, ?_, ?_⟩
        · rw [he]
        · rw [he]
        · rw [he]
          exact hfirst
        · rw [he]
          simp
      · rw [if_neg hfirst, ← hsplit2] at hsome
        obtain ⟨j, hj1, hj2, he1, he2, he3, he4⟩ := ih (b + 1) (i + 1) e hsome
        exact ⟨j, by omega, by omega, he1, he2, he3, by omega⟩

theorem splitRunsAux_cons (brk : ℕ → Bool) (batch : List ℕ) (w : ℕ) (rest : List ℕ) :
    splitRunsAux brk batch (w :: rest) =
      if brk w then batch :: splitRunsAux brk [w] rest
      else splitRunsAux brk (batch ++ [w]) rest := rfl

/-- Structure of the reference splitter on a contiguous index interval:
the chunks concatenate back to the interval, and every chunk is a non-empty
contiguous run with no internal break whose right end is either the end of
the interval or a break point. -/
theorem splitRunsAux_struct (brk : ℕ → Bool) :
    ∀ (m k b : ℕ), b < k →
    (∀ j, b < j → j < k → brk j = false) →
    ((splitRunsAux brk (List.range' b (k - b)) (List.range' k m)).flatten
        = List.range' b (k + m - b))
    ∧ ∀ c ∈ splitRunsAux brk (List.range' b (k - b)) (List.range' k m),
        ∃ s len, c = List.range' s len ∧ 0 < len ∧ b ≤ s ∧ s + len ≤ k + m ∧
          (∀ j, s < j → j < s + len → brk j = false) ∧
          (s + len = k + m ∨ brk (s + len) = true) := by
  intro m
  induction m with
  | zero =>
    intro k b hbk hbatch
    constructor
    · show (splitRunsAux brk (List.range' b (k - b)) []).flatten = _
      simp [splitRunsAux]
    · intro c hc
      simp [splitRunsAux] at hc
      subst hc
      refine ⟨b, k - b, rfl, by omega, le_refl b, by omega, ?_, ?_⟩
      · intro j h1 h2
        exact hbatch j h1 (by omega)
      · left
        omega
  | succ m ih =>
    intro k b hbk hbatch
    have hsplitrest : List.range' k (m + 1) = k :: List.range' (k + 1) m := by
      have := List.range'_succ k m 1
      simpa using this
    rw [hsplitrest, splitRunsAux_cons]
    by_cases hbrk : brk k = true
    · rw [if_pos hbrk]
      have hk1 : List.range' k (k + 1 - k) = [k] := by
        rw [show k + 1 - k = 1 from by omega]
        simp
      have ihres := ih (k + 1) k (by omega)
        (fun j h1 h2 => absurd (And.intro h1 h2) (by omega))
      rw [hk1] at ihres
      obtain ⟨ihflat, ihchunks⟩ := ihres
      constructor
      · rw [List.flatten_cons, ihflat]
        have happ := List.range'_append b (k - b) (k + 1 + m - k) 1
        simp only [one_mul] at happ
        rw [show b + (k - b) = k from by omega] at happ
        rw [show k + 1 + m - k + (k - b) = k + (m + 1) - b from by omega] at happ
        exact happ
      · intro c hc
        rcases List.mem_cons.1 hc with hc | hc
        · subst hc
          refine ⟨b, k - b, rfl, by omega, le_refl b, by omega, ?_, ?_⟩
          · intro j h1 h2
            exact hbatch j h1 (by omega)
          · right
            rw [show b + (k - b) = k from by omega]
            exact hbrk
        · obtain ⟨s, len, hcr, hlen, hs, hbound, hint, hend⟩ := ihchunks c hc
          refine ⟨s, len, hcr, hlen, by omega, by omega, hint, ?_⟩
          rcases hend with hend | hend
          · left
            omega
          · right
            exact hend
    · rw [if_neg hbrk]
      have hbrkf : brk k = false := by
        simpa using hbrk
      have hconcat : List.range' b (k - b) ++ [k] = List.range' b (k + 1 - b) := by
        have := @List.range'_concat 1 b (k - b)
        simp only [one_mul] at this
        rw [show b + (k - b) = k from by omega] at this
        rw [show k + 1 - b = k - b + 1 from by omega]
        exact this.symm
      rw [hconcat]
      have hbatch' : ∀ j, b < j → j < k + 1 → brk j = false := by
        intro j h1 h2
        by_cases hj : j = k
        · rw [hj]
          exact hbrkf
        · exact hbatch j h1 (by omega)
      have ihres := ih (k + 1) b (by omega) hbatch'
      obtain ⟨ihflat, ihchunks⟩ := ihres
      constructor
      · rw [ihflat]
        rw [show k + 1 + m - b = k + (m + 1) - b from by omega]
      · intro c hc
        obtain ⟨s, len, hcr, hlen, hs, hbound, hint, hend⟩ := ihchunks c hc
        refine ⟨s, len, hcr, hlen, hs, by omega, hint, ?_⟩
        rcases hend with hend | hend
        · left
          omega
        · right
          exact hend

/-- Closing a batch `[b, k)` during a no-overlap run: the overlap check
passes, the section built carries the batch and the first word's start, and
the store after in-place normalization agrees with `words` from `k` on and
with `normalizedStore words` below `k`. -/
theorem close_batch (words : List Word) (hno : NoOverlap words)
    (b k : ℕ) (store : Store) (hbk : b < k) (hkn : k ≤ words.length)
    (hsl : store.length = words.length)
    (hagree : ∀ j, b ≤ j → getWord store j = getWord words j)
    (hpre : ∀ j, j < b → getWord store j = getWord (normalizedStore words) j)
    (hbatch : ∀ j, b < j → j < k → wordBreak words j = false)
    (hlast : k = words.length ∨ wordBreak words k = true) :
    create_validated_section store (List.range' b (k - b)) =
      .ok (normalnize_time store (List.range' b (k - b)),
           mkSection words (List.range' b (k - b)))
    ∧ (normalnize_time store (List.range' b (k - b))).length = words.length
    ∧ (∀ j, k ≤ j → getWord (normalnize_time store (List.range' b (k - b))) j
        = getWord words j)
    ∧ (∀ j, j < k → getWord (normalnize_time store (List.range' b (k - b))) j
        = getWord (normalizedStore words) j) := by
  have hblen : b + (k - b) ≤ store.length := by omega
  have hN := normalnize_time_range'_getWord words (k - b) b store hblen
  have hchk : check_overlap store (List.range' b (k - b)) = none := by
    apply check_overlap_from_none_of
    intro j hj hj2
    rw [hagree j hj, hagree (j + 1) (by omega)]
    exact hno j (by omega)
  refine ⟨?_, ?_, ?_, ?_⟩
  · unfold create_validated_section
    rw [hchk]
    have hhead : (List.range' b (k - b)).headD 0 = b := by
      obtain ⟨l, hl⟩ : ∃ l, k - b = l + 1 := ⟨k - b - 1, by omega⟩
      rw [hl, range'_headD]
    have hstart : (getWord (normalnize_time store (List.range' b (k - b))) b).time.start
        = (getWord words b).time.start := by
      rw [hN b]
      split
      · rw [hagree b (le_refl b)]
      · rw [hagree b (le_refl b)]
    show Except.ok (normalnize_time store (List.range' b (k - b)),
        { wordList := List.range' b (k - b),
          sectionStart := (getWord (normalnize_time store (List.range' b (k - b)))
            ((List.range' b (k - b)).headD 0)).time.start })
      = Except.ok (normalnize_time store (List.range' b (k - b)),
          mkSection words (List.range' b (k - b)))
    unfold mkSection
    rw [hhead, hstart]
  · rw [normalnize_time_length]
    exact hsl
  · intro j hj
    rw [hN j, if_neg (by omega)]
    exact hagree j (by omega)
  · intro j hj
    rw [hN j]
    by_cases hjb : j < b
    · rw [if_neg (by omega)]
      exact hpre j hjb
    · have hjb' : b ≤ j := by omega
      rw [getWord_normalizedStore words j (by omega)]
      unfold normalizedWord
      by_cases hjk : j + 1 < k
      · rw [if_pos (by omega), if_pos ?side]
        case side =>
          constructor
          · omega
          · exact hbatch (j + 1) (by omega) hjk
        rw [hagree j hjb', hagree (j + 1) (by omega)]
      · -- j = k - 1: the batch's last word is untouched, and `normalizedWord`
        -- also leaves it untouched because `k` is the end of the input or a break
        have hj1 : j + 1 = k := by omega
        rw [if_neg (by omega)]
        rw [hagree j hjb']
        rcases hlast with hend | hbrk
        · rw [if_neg (by omega)]
        · rw [if_neg (by rw [hj1]; intro hc; rw [hbrk] at hc; exact absurd hc.2 (by simp))]

theorem group_aux_nil (store : Store) (sections : List Section) (batch : List ℕ) :
    group_aux store sections batch [] =
      match create_validated_section store batch with
      | .error e => .error e
      | .ok (store1, sec) => .ok (store1, sections ++ [sec]) := rfl

theorem group_aux_cons (store : Store) (sections : List Section) (batch : List ℕ)
    (w : ℕ) (rest : List ℕ) :
    group_aux store sections batch (w :: rest) =
      if (getWord store w).time.start - (getWord store (batch.getLastD 0)).time.stop
          > TIME_TOLERANCE then
        match create_validated_section store batch with
        | .error e => .error e
        | .ok (store1, sec) => group_aux store1 (sections ++ [sec]) [w] rest
      else group_aux store sections (batch ++ [w]) rest := rfl

/-- The full trace of a no-overlap run of the grouping loop: the store ends
up fully normalized and the emitted sections are the reference splitter's
chunks. -/
theorem group_aux_ok (words : List Word) (hno : NoOverlap words) :
    ∀ (m k b : ℕ) (store : Store) (sections : List Section),
    b < k → k + m = words.length →
    store.length = words.length →
    (∀ j, b ≤ j → getWord store j = getWord words j) →
    (∀ j, j < b → getWord store j = getWord (normalizedStore words) j) →
    (∀ j, b < j → j < k → wordBreak words j = false) →
    group_aux store sections (List.range' b (k - b)) (List.range' k m) =
      .ok (normalizedStore words,
        sections ++ (splitRunsAux (wordBreak words) (List.range' b (k - b))
          (List.range' k m)).map (mkSection words)) := by
  intro m
  induction m with
  | zero =>
    intro k b store sections hbk hkm hsl hagree hpre hbatch
    obtain ⟨hcv, hlen1, hag1, hpre1⟩ := close_batch words hno b k store hbk (by omega)
      hsl hagree hpre hbatch (Or.inl (by omega))
    rw [List.range'_zero, group_aux_nil, hcv]
    have hstore : normalnize_time store (List.range' b (k - b)) = normalizedStore words := by
      apply store_eq_of_getWord
      · rw [hlen1, normalizedStore_length]
      · intro j hj
        rw [hlen1] at hj
        exact hpre1 j (by omega)
    rw [hstore]
    simp [splitRunsAux]
  | succ m ih =>
    intro k b store sections hbk hkm hsl hagree hpre hbatch
    have hsplitrest : List.range' k (m + 1) = k :: List.range' (k + 1) m := by
      have := List.range'_succ k m 1
      simpa using this
    rw [hsplitrest, group_aux_cons]
    have hlastb : (List.range' b (k - b)).getLastD 0 = k - 1 := by
      obtain ⟨l, hl⟩ : ∃ l, k - b = l + 1 := ⟨k - b - 1, by omega⟩
      rw [hl, range'_getLastD]
      omega
    rw [hlastb, hagree k (by omega), hagree (k - 1) (by omega)]
    by_cases hgap : TIME_TOLERANCE <
        (getWord words k).time.start - (getWord words (k - 1)).time.stop
    · have hbrk : wordBreak words k = true := by
        unfold wordBreak
        exact decide_eq_true hgap
      rw [if_pos hgap]
      obtain ⟨hcv, hlen1, hag1, hpre1⟩ := close_batch words hno b k store hbk (by omega)
        hsl hagree hpre hbatch (Or.inr hbrk)
      rw [hcv]
      show group_aux (normalnize_time store (List.range' b (k - b)))
          (sections ++ [mkSection words (List.range' b (k - b))]) [k]
          (List.range' (k + 1) m) = _
      have hk1 : [k] = List.range' k (k + 1 - k) := by
        rw [show k + 1 - k = 1 from by omega]
        simp
      rw [hk1, ih (k + 1) k (normalnize_time store (List.range' b (k - b)))
        (sections ++ [mkSection words (List.range' b (k - b))]) (by omega) (by omega)
        hlen1 hag1 hpre1 (fun j h1 h2 => absurd (And.intro h1 h2) (by omega))]
      rw [splitRunsAux_cons, if_pos hbrk, hk1]
      simp [List.append_assoc]
    · have hbrkf : wordBreak words k = false := by
        unfold wordBreak
        exact decide_eq_false hgap
      rw [if_neg hgap]
      have hconcat : List.range' b (k - b) ++ [k] = List.range' b (k + 1 - b) := by
        have := @List.range'_concat 1 b (k - b)
        simp only [one_mul] at this
        rw [show b + (k - b) = k from by omega] at this
        rw [show k + 1 - b = k - b + 1 from by omega]
        exact this.symm
      have hbatch' : ∀ j, b < j → j < k + 1 → wordBreak words j = false := by
        intro j h1 h2
        by_cases hj : j = k
        · rw [hj]
          exact hbrkf
        · exact hbatch j h1 (by omega)
      rw [hconcat, ih (k + 1) b store sections (by omega) (by omega) hsl hagree hpre hbatch']
      rw [splitRunsAux_cons, if_neg (by simp [hbrkf]), hconcat]

/-- If the grouping loop returns successfully, no consecutive pair from the
unprocessed region onward overlaps: every batch passed `_check_overlap` and
every batch boundary had a positive gap. -/
theorem group_aux_ok_no_overlap (words : List Word) :
    ∀ (m k b : ℕ) (store : Store) (sections : List Section) (v : Store × List Section),
    b < k → k + m = words.length → store.length = words.length →
    (∀ j, b ≤ j → getWord store j = getWord words j) →
    group_aux store sections (List.range' b (k - b)) (List.range' k m) = .ok v →
    ∀ j, b ≤ j → j + 1 < words.length → ¬ overlapAt words j := by
  intro m
  induction m with
  | zero =>
    intro k b store sections v hbk hkm hsl hagree hok j hj hj2
    rw [List.range'_zero, group_aux_nil] at hok
    cases hchk : check_overlap store (List.range' b (k - b)) with
    | some e =>
      have hcv : create_validated_section store (List.range' b (k - b)) = .error e := by
        unfold create_validated_section
        rw [hchk]
      rw [hcv] at hok
      exact absurd hok (by simp)
    | none =>
      intro hov
      have := check_overlap_from_none_sound store (k - b) b 0 hchk j hj (by omega)
      rw [hagree j hj, hagree (j + 1) (by omega)] at this
      exact this hov
  | succ m ih =>
    intro k b store sections v hbk hkm hsl hagree hok j hj hj2
    have hsplitrest : List.range' k (m + 1) = k :: List.range' (k + 1) m := by
      have := List.range'_succ k m 1
      simpa using this
    have hlastb : (List.range' b (k - b)).getLastD 0 = k - 1 := by
      obtain ⟨l, hl⟩ : ∃ l, k - b = l + 1 := ⟨k - b - 1, by omega⟩
      rw [hl, range'_getLastD]
      omega
    rw [hsplitrest, group_aux_cons, hlastb, hagree k (by omega),
      hagree (k - 1) (by omega)] at hok
    by_cases hgap : TIME_TOLERANCE <
        (getWord words k).time.start - (getWord words (k - 1)).time.stop
    · rw [if_pos hgap] at hok
      cases hchk : check_overlap store (List.range' b (k - b)) with
      | some e =>
        have hcv : create_validated_section store (List.range' b (k - b)) = .error e := by
          unfold create_validated_section
          rw [hchk]
        rw [hcv] at hok
        exact absurd hok (by simp)
      | none =>
        have hcv : create_validated_section store (List.range' b (k - b)) =
            .ok (normalnize_time store (List.range' b (k - b)),
              { wordList := List.range' b (k - b),
                sectionStart := (getWord (normalnize_time store (List.range' b (k - b)))
                  ((List.range' b (k - b)).headD 0)).time.start }) := by
          unfold create_validated_section
          rw [hchk]
        rw [hcv] at hok
        have hok' : group_aux (normalnize_time store (List.range' b (k - b)))
            (sections ++
              [{ wordList := List.range' b (k - b),
                 sectionStart := (getWord (normalnize_time store (List.range' b (k - b)))
                   ((List.range' b (k - b)).headD 0)).time.start }]) [k]
            (List.range' (k + 1) m) = .ok v := hok
        have hag1 : ∀ i, k ≤ i →
            getWord (normalnize_time store (List.range' b (k - b))) i = getWord words i := by
          intro i hi
          rw [normalnize_time_range'_getWord words (k - b) b store (by omega) i,
            if_neg (by omega)]
          exact hagree i (by omega)
        have hk1 : [k] = List.range' k (k + 1 - k) := by
          rw [show k + 1 - k = 1 from by omega]
          simp
        rw [hk1] at hok'
        rcases Nat.lt_trichotomy (j + 1) k with hlt | heq | hgt
        · intro hov
          have := check_overlap_from_none_sound store (k - b) b 0 hchk j hj (by omega)
          rw [hagree j hj, hagree (j + 1) (by omega)] at this
          exact this hov
        · intro hov
          unfold overlapAt at hov
          rw [show j = k - 1 from by omega] at hov
          rw [show k - 1 + 1 = k from by omega] at hov
          have := TIME_TOLERANCE_pos
          linarith
        · exact ih (k + 1) k _ _ v (by omega) (by omega)
            (by rw [normalnize_time_length]; exact hsl) hag1 hok' j (by omega) hj2
    · rw [if_neg hgap] at hok
      have hconcat : List.range' b (k - b) ++ [k] = List.range' b (k + 1 - b) := by
        have := @List.range'_concat 1 b (k - b)
        simp only [one_mul] at this
        rw [show b + (k - b) = k from by omega] at this
        rw [show k + 1 - b = k - b + 1 from by omega]
        exact this.symm
      rw [hconcat] at hok
      exact ih (k + 1) b store sections v (by omega) (by omega) hsl hagree hok j hj hj2

/-- If the grouping loop raises, the error's two times belong to a genuine
overlapping consecutive pair of the input, and its index is the pair's
position within the batch (phrase) being validated, whose first word is
`b2` (the start of the input or a break point, with no break up to the
pair). -/
theorem group_aux_error_content (words : List Word) :
    ∀ (m k b : ℕ) (store : Store) (sections : List Section) (e : TemporalOverlapError),
    b < k → k + m = words.length → store.length = words.length →
    (∀ j, b ≤ j → getWord store j = getWord words j) →
    (∀ j, b < j → j < k → wordBreak words j = false) →
    (b = 0 ∨ wordBreak words b = true) →
    group_aux store sections (List.range' b (k - b)) (List.range' k m) = .error e →
    ∃ j b2, b2 ≤ j ∧ j + 1 < words.length ∧
      (b2 = 0 ∨ wordBreak words b2 = true) ∧
      (∀ i, b2 < i → i ≤ j + 1 → wordBreak words i = false) ∧
      e.index = j - b2 ∧
      e.currEnd = (getWord words j).time.stop ∧
      e.nextStart = (getWord words (j + 1)).time.start ∧
      TIME_TOLERANCE < e.currEnd - e.nextStart := by
  intro m
  induction m with
  | zero =>
    intro k b store sections e hbk hkm hsl hagree hbatch hbstart herr
    rw [List.range'_zero, group_aux_nil] at herr
    cases hchk : check_overlap store (List.range' b (k - b)) with
    | none =>
      have hcv : create_validated_section store (List.range' b (k - b)) =
          .ok (normalnize_time store (List.range' b (k - b)),
            { wordList := List.range' b (k - b),
              sectionStart := (getWord (normalnize_time store (List.range' b (k - b)))
                ((List.range' b (k - b)).headD 0)).time.start }) := by
        unfold create_validated_section
        rw [hchk]
      rw [hcv] at herr
      exact absurd herr (by simp)
    | some e' =>
      have hcv : create_validated_section store (List.range' b (k - b)) = .error e' := by
        unfold create_validated_section
        rw [hchk]
      rw [hcv] at herr
      have he : e' = e := by
        simpa using herr
      obtain ⟨j, hj1, hj2, h1, h2, h3, h4⟩ :=
        check_overlap_from_some_sound store (k - b) b 0 e (he ▸ hchk)
      refine ⟨j, b, hj1, by omega, hbstart, ?_, by omega, ?_, ?_, h3⟩
      · intro i hi1 hi2
        exact hbatch i hi1 (by omega)
      · rw [h1, hagree j hj1]
      · rw [h2, hagree (j + 1) (by omega)]
  | succ m ih =>
    intro k b store sections e hbk hkm hsl hagree hbatch hbstart herr
    have hsplitrest : List.range' k (m + 1) = k :: List.range' (k + 1) m := by
      have := List.range'_succ k m 1
      simpa using this
    have hlastb : (List.range' b (k - b)).getLastD 0 = k - 1 := by
      obtain ⟨l, hl⟩ : ∃ l, k - b = l + 1 := ⟨k - b - 1, by omega⟩
      rw [hl, range'_getLastD]
      omega
    rw [hsplitrest, group_aux_cons, hlastb, hagree k (by omega),
      hagree (k - 1) (by omega)] at herr
    by_cases hgap : TIME_TOLERANCE <
        (getWord words k).time.start - (getWord words (k - 1)).time.stop
    · rw [if_pos hgap] at herr
      cases hchk : check_overlap store (List.range' b (k - b)) with
      | some e' =>
        have hcv : create_validated_section store (List.range' b (k - b)) = .error e' := by
          unfold create_validated_section
          rw [hchk]
        rw [hcv] at herr
        have he : e' = e := by
          simpa using herr
        obtain ⟨j, hj1, hj2, h1, h2, h3, h4⟩ :=
          check_overlap_from_some_sound store (k - b) b 0 e (he ▸ hchk)
        refine ⟨j, b, hj1, by omega, hbstart, ?_, by omega, ?_, ?_, h3⟩
        · intro i hi1 hi2
          exact hbatch i hi1 (by omega)
        · rw [h1, hagree j hj1]
        · rw [h2, hagree (j + 1) (by omega)]
      | none =>
        have hcv : create_validated_section store (List.range' b (k - b)) =
            .ok (normalnize_time store (List.range' b (k - b)),
              { wordList := List.range' b (k - b),
                sectionStart := (getWord (normalnize_time store (List.range' b (k - b)))
                  ((List.range' b (k - b)).headD 0)).time.start }) := by
          unfold create_validated_section
          rw [hchk]
        rw [hcv] at herr
        have herr' : group_aux (normalnize_time store (List.range' b (k - b)))
            (sections ++
              [{ wordList := List.range' b (k - b),
                 sectionStart := (getWord (normalnize_time store (List.range' b (k - b)))
                   ((List.range' b (k - b)).headD 0)).time.start }]) [k]
            (List.range' (k + 1) m) = .error e := herr
        have hag1 : ∀ i, k ≤ i →
            getWord (normalnize_time store (List.range' b (k - b))) i = getWord words i := by
          intro i hi
          rw [normalnize_time_range'_getWord words (k - b) b store (by omega) i,
            if_neg (by omega)]
          exact hagree i (by omega)
        have hk1 : [k] = List.range' k (k + 1 - k) := by
          rw [show k + 1 - k = 1 from by omega]
          simp
        rw [hk1] at herr'
        have hbrk : wordBreak words k = true := by
          unfold wordBreak
          exact decide_eq_true hgap
        exact ih (k + 1) k _ _ e (by omega) (by omega)
          (by rw [normalnize_time_length]; exact hsl) hag1
          (fun j h1 h2 => absurd (And.intro h1 h2) (by omega))
          (Or.inr hbrk) herr'
    · rw [if_neg hgap] at herr
      have hconcat : List.range' b (k - b) ++ [k] = List.range' b (k + 1 - b) := by
        have := @List.range'_concat 1 b (k - b)
        simp only [one_mul] at this
        rw [show b + (k - b) = k from by omega] at this
        rw [show k + 1 - b = k - b + 1 from by omega]
        exact this.symm
      rw [hconcat] at herr
      have hbrkf : wordBreak words k = false := by
        unfold wordBreak
        exact decide_eq_false hgap
      refine ih (k + 1) b store sections e (by omega) (by omega) hsl hagree
        ?_ hbstart herr
      intro j h1 h2
      by_cases hjk : j < k
      · exact hbatch j h1 hjk
      · rw [show j = k from by omega]
        exact hbrkf

theorem segmentWords_eq (words : List Word) (hne : words ≠ []) :
    segmentWords words =
      group_aux words [] (List.range' 0 1) (List.range' 1 (words.length - 1)) := by
  unfold segmentWords group_words_to_sections
  obtain ⟨n, hn⟩ : ∃ n, words.length = n + 1 := by
    cases words with
    | nil => exact absurd rfl hne
    | cons w tl => exact ⟨tl.length, by simp⟩
  rw [hn]
  have hr : List.range (n + 1) = 0 :: List.range' 1 n := by
    rw [List.range_eq_range']
    have := List.range'_succ 0 n 1
    simpa using this
  rw [hr]
  show group_aux words [] [0] (List.range' 1 n) = _
  rw [show List.range' 0 1 = [0] from by simp, show n + 1 - 1 = n from rfl]

theorem segmentWords_ok_no_overlap (words : List Word) (v : Store × List Section)
    (h : segmentWords words = .ok v) : NoOverlap words := by
  intro j hj2
  have hne : words ≠ [] := by
    intro hc
    rw [hc] at hj2
    simp at hj2
  have hlen : 0 < words.length := List.length_pos.2 hne
  rw [segmentWords_eq words hne] at h
  have h' : group_aux words [] (List.range' 0 (1 - 0))
      (List.range' 1 (words.length - 1)) = .ok v := h
  exact group_aux_ok_no_overlap words (words.length - 1) 1 0 words [] v
    (by omega) (by omega) rfl (fun i _ => rfl) h' j (by omega) hj2

/-- A successful segmentation run pins down the final heap (every word
normalized) and the emitted sections (the reference splitter's chunks). -/
theorem segmentWords_ok_spec (words : List Word) (store1 : Store)
    (sections : List Section)
    (h : segmentWords words = .ok (store1, sections)) (hne : words ≠ []) :
    store1 = normalizedStore words ∧
    sections = (splitRunsAux (wordBreak words) (List.range' 0 1)
      (List.range' 1 (words.length - 1))).map (mkSection words) := by
  have hno := segmentWords_ok_no_overlap words (store1, sections) h
  have hlen : 0 < words.length := List.length_pos.2 hne
  rw [segmentWords_eq words hne] at h
  have hok := group_aux_ok words hno (words.length - 1) 1 0 words []
    (by omega) (by omega) rfl (fun i _ => rfl)
    (fun i hi => absurd hi (by omega))
    (fun i h1 h2 => absurd (And.intro h1 h2) (by omega))
  have h' : group_aux words [] (List.range' 0 (1 - 0))
      (List.range' 1 (words.length - 1)) = .ok (store1, sections) := h
  have hpair := Except.ok.inj (h'.symm.trans hok)
  constructor
  · exact congrArg Prod.fst hpair
  · have := congrArg Prod.snd hpair
    simpa using this

/-- The chunk structure instantiated at the top-level call. -/
theorem splitRuns_spec (words : List Word) (hne : words ≠ []) :
    ((splitRunsAux (wordBreak words) (List.range' 0 1)
        (List.range' 1 (words.length - 1))).flatten = List.range words.length)
    ∧ ∀ c ∈ splitRunsAux (wordBreak words) (List.range' 0 1)
        (List.range' 1 (words.length - 1)),
        ∃ s len, c = List.range' s len ∧ 0 < len ∧ s + len ≤ words.length ∧
          (∀ j, s < j → j < s + len → wordBreak words j = false) ∧
          (s + len = words.length ∨ wordBreak words (s + len) = true) := by
  have hlen : 0 < words.length := List.length_pos.2 hne
  have hstruct := splitRunsAux_struct (wordBreak words) (words.length - 1) 1 0
    (by omega) (fun j h1 h2 => absurd (And.intro h1 h2) (by omega))
  have h10 : (1 : ℕ) - 0 = 1 := rfl
  rw [h10] at hstruct
  obtain ⟨hf, hc⟩ := hstruct
  constructor
  · rw [hf, List.range_eq_range', show 1 + (words.length - 1) - 0 = words.length from by omega]
  · intro c hcm
    obtain ⟨s, len, h1, h2, _, h4, h5, h6⟩ := hc c hcm
    refine ⟨s, len, h1, h2, by omega, h5, ?_⟩
    rcases h6 with h6 | h6
    · left
      omega
    · right
      exact h6

/-- C2 (amended): the Segmenter raises the temporal-overlap error iff some
consecutive input pair has `prev.end - next.start > 1e-12`; a raised error
carries the end/start times of a genuinely offending consecutive pair, and
its `index` field is the pair's position within the Phrase being validated
(phrase-relative: `j - b` where `b` is that phrase's first note — the start
of the input or a break point with no break between it and the pair), not
the pair's index in the input note sequence. -/
theorem segmenter_overlap_error_iff (words : List Word) :
    ((∃ e, segmentWords words = .error e) ↔
      ∃ j, j + 1 < words.length ∧
        TIME_TOLERANCE < (getWord words j).time.stop - (getWord words (j + 1)).time.start)
    ∧ ∀ e, segmentWords words = .error e →
        ∃ j b, b ≤ j ∧ j + 1 < words.length ∧
          (b = 0 ∨ wordBreak words b = true) ∧
          (∀ i, b < i → i ≤ j + 1 → wordBreak words i = false) ∧
          e.index = j - b ∧
          e.currEnd = (getWord words j).time.stop ∧
          e.nextStart = (getWord words (j + 1)).time.start ∧
          TIME_TOLERANCE < e.currEnd - e.nextStart := by
  have hcontent : ∀ e, segmentWords words = .error e →
      ∃ j b, b ≤ j ∧ j + 1 < words.length ∧
        (b = 0 ∨ wordBreak words b = true) ∧
        (∀ i, b < i → i ≤ j + 1 → wordBreak words i = false) ∧
        e.index = j - b ∧
        e.currEnd = (getWord words j).time.stop ∧
        e.nextStart = (getWord words (j + 1)).time.start ∧
        TIME_TOLERANCE < e.currEnd - e.nextStart := by
    intro e he
    have hne : words ≠ [] := by
      intro hc
      rw [hc] at he
      exact absurd he (by simp [segmentWords, group_words_to_sections])
    have hlen : 0 < words.length := List.length_pos.2 hne
    rw [segmentWords_eq words hne] at he
    have he' : group_aux words [] (List.range' 0 (1 - 0))
        (List.range' 1 (words.length - 1)) = .error e := he
    exact group_aux_error_content words (words.length - 1) 1 0 words [] e
      (by omega) (by omega) rfl (fun i _ => rfl)
      (fun j h1 h2 => absurd (And.intro h1 h2) (by omega)) (Or.inl rfl) he'
  refine ⟨⟨?_, ?_⟩, hcontent⟩
  · rintro ⟨e, he⟩
    obtain ⟨j, b, hb, hj, hst, hin, hix, h1, h2, h3⟩ := hcontent e he
    refine ⟨j, hj, ?_⟩
    rw [← h1, ← h2]
    exact h3
  · rintro ⟨j, hj, hov⟩
    cases hseg : segmentWords words with
    | error e => exact ⟨e, rfl⟩
    | ok v => exact absurd hov (segmentWords_ok_no_overlap words v hseg j hj)

/-- C1: within every produced Phrase, after processing, each adjacent pair
of notes satisfies `notes[i].end == notes[i+1].start` exactly in the final
heap, and the last note's end time is the original one, untouched. -/
theorem segmenter_normalization (words : List Word) (store1 : Store)
    (sections : List Section)
    (h : segmentWords words = .ok (store1, sections)) :
    ∀ sec ∈ sections,
      (∀ p, p + 1 < sec.wordList.length →
        (getWord store1 (sec.wordList.getD p 0)).time.stop
          = (getWord store1 (sec.wordList.getD (p + 1) 0)).time.start)
      ∧ (getWord store1 (sec.wordList.getLastD 0)).time.stop
          = (getWord words (sec.wordList.getLastD 0)).time.stop := by
  by_cases hne : words = []
  · subst hne
    have hpair : (([], []) : Store × List Section) = (store1, sections) := Except.ok.inj h
    cases hpair
    intro sec hsecm
    exact absurd hsecm (List.not_mem_nil sec)
  · obtain ⟨hst, hsec⟩ := segmentWords_ok_spec words store1 sections h hne
    obtain ⟨hflat, hchunks⟩ := splitRuns_spec words hne
    subst hst
    subst hsec
    intro sec hsecm
    obtain ⟨c, hcm, rfl⟩ := List.mem_map.1 hsecm
    obtain ⟨s, len, rfl, hlen, hbound, hint, hend⟩ := hchunks c hcm
    constructor
    · intro p hp
      have hp' : p + 1 < len := by
        simpa [mkSection, List.length_range'] using hp
      show (getWord (normalizedStore words) ((List.range' s len).getD p 0)).time.stop
        = (getWord (normalizedStore words) ((List.range' s len).getD (p + 1) 0)).time.start
      rw [range'_getD s len p 0 (by omega), range'_getD s len (p + 1) 0 (by omega)]
      rw [getWord_normalizedStore words (s + p) (by omega),
        getWord_normalizedStore words (s + (p + 1)) (by omega), normalizedWord_start]
      unfold normalizedWord
      rw [if_pos (And.intro (by omega) (hint (s + p + 1) (by omega) (by omega)))]
      rfl
    · show (getWord (normalizedStore words) ((List.range' s len).getLastD 0)).time.stop
        = (getWord words ((List.range' s len).getLastD 0)).time.stop
      obtain ⟨l, rfl⟩ : ∃ l, len = l + 1 := ⟨len - 1, by omega⟩
      rw [range'_getLastD]
      rw [getWord_normalizedStore words (s + l) (by omega)]
      unfold normalizedWord
      rw [if_neg ?side]
      case side =>
        rintro ⟨hA, hB⟩
        rcases hend with hend | hend
        · omega
        · rw [show s + l + 1 = s + (l + 1) from by omega, hend] at hB
          exact absurd hB (by simp)

/-- C3: two consecutive input notes land in the same Phrase exactly when
their gap is within the tolerance, and every note lands in some Phrase:
each produced Phrase is a maximal run of continuous notes. -/
theorem segmenter_grouping (words : List Word) (store1 : Store)
    (sections : List Section)
    (h : segmentWords words = .ok (store1, sections)) :
    ∀ j, j + 1 < words.length →
      (((∃ sec ∈ sections, j ∈ sec.wordList ∧ j + 1 ∈ sec.wordList) ↔
        (getWord words (j + 1)).time.start - (getWord words j).time.stop ≤ TIME_TOLERANCE))
      ∧ ∃ sec ∈ sections, j ∈ sec.wordList := by
  intro j hj
  have hne : words ≠ [] := by
    intro hc
    rw [hc] at hj
    simp at hj
  obtain ⟨hst, hsec⟩ := segmentWords_ok_spec words store1 sections h hne
  obtain ⟨hflat, hchunks⟩ := splitRuns_spec words hne
  subst hsec
  have hcov : ∀ i, i < words.length →
      ∃ c ∈ splitRunsAux (wordBreak words) (List.range' 0 1)
        (List.range' 1 (words.length - 1)), i ∈ c := by
    intro i hi
    have hmem : i ∈ List.range words.length := List.mem_range.2 hi
    rw [← hflat] at hmem
    exact List.mem_flatten.1 hmem
  have hbrkiff : wordBreak words (j + 1) = false ↔
      (getWord words (j + 1)).time.start - (getWord words j).time.stop ≤ TIME_TOLERANCE := by
    unfold wordBreak
    rw [show j + 1 - 1 = j from by omega]
    constructor
    · intro hf
      exact le_of_not_lt (of_decide_eq_false hf)
    · intro hle
      exact decide_eq_false (not_lt.2 hle)
  constructor
  · constructor
    · rintro ⟨sec, hsecm, hjm, hj1m⟩
      obtain ⟨c, hcm, rfl⟩ := List.mem_map.1 hsecm
      obtain ⟨s, len, rfl, hlen, hbound, hint, hend⟩ := hchunks c hcm
      have hj1 : j + 1 ∈ List.range' s len := hj1m
      have hjmem : j ∈ List.range' s len := hjm
      rw [List.mem_range'_1] at hj1 hjmem
      exact hbrkiff.1 (hint (j + 1) (by omega) (by omega))
    · intro hle
      obtain ⟨c, hcm, hjc⟩ := hcov j (by omega)
      obtain ⟨s, len, rfl, hlen, hbound, hint, hend⟩ := hchunks c hcm
      rw [List.mem_range'_1] at hjc
      have hbrkf := hbrkiff.2 hle
      by_cases hj1c : j + 1 < s + len
      · exact ⟨mkSection words (List.range' s len), List.mem_map_of_mem _ hcm,
          List.mem_range'_1.2 (And.intro (by omega) (by omega)),
          List.mem_range'_1.2 (And.intro (by omega) hj1c)⟩
      · exfalso
        have hj1eq : j + 1 = s + len := by omega
        rcases hend with hend | hend
        · omega
        · rw [← hj1eq] at hend
          rw [hbrkf] at hend
          exact absurd hend (by simp)
  · obtain ⟨c, hcm, hjc⟩ := hcov j (by omega)
    exact ⟨mkSection words c, List.mem_map_of_mem _ hcm, hjc⟩

/-- C10: concatenating the word-reference lists of all produced Phrases, in
order, yields exactly the input sequence of word objects `0, 1, …, n-1`:
segmentation drops, duplicates and reorders nothing. -/
theorem segmenter_partition (words : List Word) (store1 : Store)
    (sections : List Section)
    (h : segmentWords words = .ok (store1, sections)) :
    (sections.map fun s => s.wordList).flatten = List.range words.length := by
  by_cases hne : words = []
  · subst hne
    have hpair : (([], []) : Store × List Section) = (store1, sections) := Except.ok.inj h
    cases hpair
    rfl
  · obtain ⟨hst, hsec⟩ := segmentWords_ok_spec words store1 sections h hne
    obtain ⟨hflat, _⟩ := splitRuns_spec words hne
    subst hsec
    rw [List.map_map]
    have hid : ((fun s => s.wordList) ∘ mkSection words) = id := by
      funext c
      rfl
    rw [hid, List.map_id]
    exact hflat

theorem segmentWords_wordsContinuous_eval :
    segmentWords wordsContinuous = .ok (wordsContinuousNormalized, wordsContinuousSections) := by
  have hr : List.range wordsContinuous.length = [0, 1] := rfl
  unfold segmentWords
  rw [hr]
  show group_aux wordsContinuous [] [0] [1] = _
  norm_num [group_aux, create_validated_section, check_overlap, check_overlap_from,
    normalnize_time, getWord, wordsContinuous, wordsContinuousNormalized,
    wordsContinuousSections, testWord, TIME_TOLERANCE, List.getLastD, List.getD,
    List.set, mkSection]

theorem segmentWords_wordsWithGap_eval :
    segmentWords wordsWithGap = .ok (wordsWithGap, wordsWithGapSections) := by
  have hr : List.range wordsWithGap.length = [0, 1] := rfl
  unfold segmentWords
  rw [hr]
  show group_aux wordsWithGap [] [0] [1] = _
  norm_num [group_aux, create_validated_section, check_overlap, check_overlap_from,
    normalnize_time, getWord, wordsWithGap, wordsWithGapSections, testWord,
    TIME_TOLERANCE, List.getLastD, List.getD, List.set, mkSection]

/-- The error's index field is phrase-relative, not the input pair index:
here the unique offending consecutive input pair is `(1, 2)`, yet the raised
error's index is `0` — its position within the second phrase `[1, 2]`. -/
theorem segmenter_error_index_counterexample :
    segmentWords wordsSecondPhraseOverlap
      = .error { index := 0, currEnd := 9/10, nextStart := 4/5 }
    ∧ (∀ j, j + 1 < wordsSecondPhraseOverlap.length →
        TIME_TOLERANCE < (getWord wordsSecondPhraseOverlap j).time.stop
          - (getWord wordsSecondPhraseOverlap (j + 1)).time.start → j = 1)
    ∧ (0 : ℕ) ≠ 1 := by
  refine ⟨?_, ?_, by decide⟩
  · have hr : List.range wordsSecondPhraseOverlap.length = [0, 1, 2] := rfl
    unfold segmentWords
    rw [hr]
    show group_aux wordsSecondPhraseOverlap [] [0] [1, 2] = _
    norm_num [group_aux, create_validated_section, check_overlap, check_overlap_from,
      normalnize_time, getWord, wordsSecondPhraseOverlap, testWord, TIME_TOLERANCE,
      List.getLastD, List.getD, List.set]
  · intro j hj hov
    have hl : wordsSecondPhraseOverlap.length = 3 := rfl
    rw [hl] at hj
    rcases j with _ | _ | j
    · exact absurd hov (by norm_num [wordsSecondPhraseOverlap, testWord, getWord,
        List.getD, TIME_TOLERANCE])
    · rfl
    · omega

theorem segmenter_overlap_error_iff_witness :
    ∃ j b, b ≤ j ∧ j + 1 < wordsOverlapping.length ∧
      (b = 0 ∨ wordBreak wordsOverlapping b = true) ∧
      (∀ i, b < i → i ≤ j + 1 → wordBreak wordsOverlapping i = false) ∧
      ({ index := 0, currEnd := 1/2, nextStart := 2/5 } : TemporalOverlapError).index = j - b ∧
      ({ index := 0, currEnd := 1/2, nextStart := 2/5 } : TemporalOverlapError).currEnd
        = (getWord wordsOverlapping j).time.stop ∧
      ({ index := 0, currEnd := 1/2, nextStart := 2/5 } : TemporalOverlapError).nextStart
        = (getWord wordsOverlapping (j + 1)).time.start ∧
      TIME_TOLERANCE <
        ({ index := 0, currEnd := 1/2, nextStart := 2/5 } : TemporalOverlapError).currEnd
        - ({ index := 0, currEnd := 1/2, nextStart := 2/5 } : TemporalOverlapError).nextStart :=
  (segmenter_overlap_error_iff wordsOverlapping).2
    { index := 0, currEnd := 1/2, nextStart := 2/5 }
    (by
      have hr : List.range wordsOverlapping.length = [0, 1] := rfl
      unfold segmentWords
      rw [hr]
      show group_aux wordsOverlapping [] [0] [1] = _
      norm_num [group_aux, create_validated_section, check_overlap, check_overlap_from,
        normalnize_time, getWord, wordsOverlapping, testWord, TIME_TOLERANCE,
        List.getLastD, List.getD])

theorem segmenter_normalization_witness :
    (getWord wordsContinuousNormalized
        (({ wordList := [0, 1], sectionStart := 0 } : Section).wordList.getD 0 0)).time.stop
      = (getWord wordsContinuousNormalized
        (({ wordList := [0, 1], sectionStart := 0 } : Section).wordList.getD (0 + 1) 0)).time.start
    ∧ (getWord wordsContinuousNormalized
        (({ wordList := [0, 1], sectionStart := 0 } : Section).wordList.getLastD 0)).time.stop
      = (getWord wordsContinuous
        (({ wordList := [0, 1], sectionStart := 0 } : Section).wordList.getLastD 0)).time.stop :=
  ⟨(segmenter_normalization wordsContinuous wordsContinuousNormalized
      wordsContinuousSections segmentWords_wordsContinuous_eval
      { wordList := [0, 1], sectionStart := 0 }
      (by simp [wordsContinuousSections])).1 0 (by simp),
   (segmenter_normalization wordsContinuous wordsContinuousNormalized
      wordsContinuousSections segmentWords_wordsContinuous_eval
      { wordList := [0, 1], sectionStart := 0 }
      (by simp [wordsContinuousSections])).2⟩

theorem segmenter_grouping_witness :
    (((∃ sec ∈ wordsWithGapSections, 0 ∈ sec.wordList ∧ 0 + 1 ∈ sec.wordList) ↔
      (getWord wordsWithGap (0 + 1)).time.start - (getWord wordsWithGap 0).time.stop
        ≤ TIME_TOLERANCE))
    ∧ ∃ sec ∈ wordsWithGapSections, 0 ∈ sec.wordList :=
  segmenter_grouping wordsWithGap wordsWithGap wordsWithGapSections
    segmentWords_wordsWithGap_eval 0 (by norm_num [wordsWithGap])

theorem segmenter_partition_witness :
    (wordsContinuousSections.map fun s => s.wordList).flatten
      = List.range wordsContinuous.length :=
  segmenter_partition wordsContinuous wordsContinuousNormalized
    wordsContinuousSections segmentWords_wordsContinuous_eval

end Florence
